import Mathlib

/-!
# Verification of the hadiscover automation parser and search/facet engine

This file gives a shallow embedding, in Lean 4, of the core logic of the
hadiscover repository (`backend/app/services/parser.py` and
`backend/app/services/search_service.py`) and proves the central
specification claims about it.

Modelling conventions:

* YAML / Python values are modelled by the inductive type `Yaml`; Python
  `None` and YAML `null` are both `Yaml.null`.  `dict.get` returning `None`
  for an absent key is modelled by `Yaml.get` returning `Yaml.null`.
  Python truthiness is the function `truthy`.
* The YAML library boundary (`yaml.safe_load` / `yaml.compose`) is external
  to the repository; its outcome is passed to the parser as an explicit
  argument: `LoadResult` for the data tree (`err` = the library raised) and
  `Option PNode` for the position tree (`none` = compose failed).  Position
  marks carry the 0-indexed line numbers exactly as pyyaml reports them
  (`start_mark.line`, and `end_mark.line` which for a multi-line block node
  is one past the node's last 0-indexed line).
* SQL strings are `String`, nullable columns are `Option String`; SQL
  three-valued logic degenerates to: any predicate on a NULL column is
  not satisfied.  `LIKE` is modelled by `likeM` with the SQL-standard
  case-sensitive semantics, `'%'`/`'_'` wildcards and an optional `'\'`
  escape character (the code always passes `escape="\\"` where escaping
  matters).
* The storage layer is a pair of in-memory tables (`List AutomationRow`,
  `List RepositoryRow`); the SQL join/filter/count/offset/limit pipeline is
  modelled by the corresponding list operations in query order.  The
  `try/except` boundary that degrades storage-layer failures is modelled by
  wrapper functions taking an `Except` store handle.
-/

/-- A YAML / Python value as produced by `yaml.safe_load`.  `null` doubles
as Python `None`. -/
inductive Yaml where
  | null
  | bool (b : Bool)
  | int (n : Int)
  | str (s : String)
  | seq (items : List Yaml)
  | map (entries : List (String × Yaml))

mutual

/-- Structural equality test for `Yaml` values (Python `==` on the shapes
the parser manipulates). -/
def Yaml.beq : Yaml → Yaml → Bool
  | .null, .null => true
  | .bool a, .bool b => a == b
  | .int a, .int b => a == b
  | .str a, .str b => a == b
  | .seq a, .seq b => Yaml.beqList a b
  | .map a, .map b => Yaml.beqEntries a b
  | _, _ => false

/-- Elementwise equality of `Yaml` sequences. -/
def Yaml.beqList : List Yaml → List Yaml → Bool
  | [], [] => true
  | a :: as, b :: bs => Yaml.beq a b && Yaml.beqList as bs
  | _, _ => false

/-- Entrywise equality of `Yaml` mappings. -/
def Yaml.beqEntries : List (String × Yaml) → List (String × Yaml) → Bool
  | [], [] => true
  | (k1, v1) :: as, (k2, v2) :: bs =>
    k1 == k2 && Yaml.beq v1 v2 && Yaml.beqEntries as bs
  | _, _ => false

end

instance : BEq Yaml := ⟨Yaml.beq⟩

mutual

theorem Yaml.beq_iff : ∀ a b : Yaml, Yaml.beq a b = true ↔ a = b
  | .null, .null => by simp [Yaml.beq]
  | .bool a, .bool b => by simp [Yaml.beq]
  | .int a, .int b => by simp [Yaml.beq]
  | .str a, .str b => by simp [Yaml.beq]
  | .seq a, .seq b => by
    simp only [Yaml.beq, Yaml.beqList_iff a b, Yaml.seq.injEq]
  | .map a, .map b => by
    simp only [Yaml.beq, Yaml.beqEntries_iff a b, Yaml.map.injEq]
  | .null, .bool _ | .null, .int _ | .null, .str _ | .null, .seq _
  | .null, .map _ | .bool _, .null | .bool _, .int _ | .bool _, .str _
  | .bool _, .seq _ | .bool _, .map _ | .int _, .null | .int _, .bool _
  | .int _, .str _ | .int _, .seq _ | .int _, .map _ | .str _, .null
  | .str _, .bool _ | .str _, .int _ | .str _, .seq _ | .str _, .map _
  | .seq _, .null | .seq _, .bool _ | .seq _, .int _ | .seq _, .str _
  | .seq _, .map _ | .map _, .null | .map _, .bool _ | .map _, .int _
  | .map _, .str _ | .map _, .seq _ => by simp [Yaml.beq]

theorem Yaml.beqList_iff : ∀ a b : List Yaml, Yaml.beqList a b = true ↔ a = b
  | [], [] => by simp [Yaml.beqList]
  | a :: as, b :: bs => by
    simp [Yaml.beqList, Yaml.beq_iff a b, Yaml.beqList_iff as bs]
  | [], _ :: _ => by simp [Yaml.beqList]
  | _ :: _, [] => by simp [Yaml.beqList]

theorem Yaml.beqEntries_iff :
    ∀ a b : List (String × Yaml), Yaml.beqEntries a b = true ↔ a = b
  | [], [] => by simp [Yaml.beqEntries]
  | (k1, v1) :: as, (k2, v2) :: bs => by
    simp [Yaml.beqEntries, Yaml.beq_iff v1 v2, Yaml.beqEntries_iff as bs,
      and_assoc]
  | [], _ :: _ => by simp [Yaml.beqEntries]
  | _ :: _, [] => by simp [Yaml.beqEntries]

end

instance : LawfulBEq Yaml where
  rfl := by intro a; exact (Yaml.beq_iff a a).2 rfl
  eq_of_beq := by intro a b h; exact (Yaml.beq_iff a b).1 h

instance : DecidableEq Yaml :=
  fun a b => decidable_of_iff (Yaml.beq a b = true) (Yaml.beq_iff a b)

/-- Python truthiness of a value (`bool(v)`). -/
def truthy : Yaml → Bool
  | .null => false
  | .bool b => b
  | .int n => n != 0
  | .str s => s != ""
  | .seq items => !items.isEmpty
  | .map entries => !entries.isEmpty

/-- Is the value a mapping (`isinstance(v, dict)`)? -/
def Yaml.isMap : Yaml → Bool
  | .map _ => true
  | _ => false

/-- `d.get(k, default)`: look the key up in a mapping, with a default for
absent keys (and for non-mappings, on which the code never calls it). -/
def Yaml.getD (y : Yaml) (k : String) (d : Yaml) : Yaml :=
  match y with
  | .map es =>
    match es.find? (fun p => p.1 == k) with
    | some p => p.2
    | none => d
  | _ => d

/-- `d.get(k)`: absent keys give Python `None`, i.e. `Yaml.null`. -/
def Yaml.get (y : Yaml) (k : String) : Yaml := y.getD k .null

/-- `k in d` for a mapping. -/
def Yaml.hasKey (y : Yaml) (k : String) : Bool :=
  match y with
  | .map es => (es.find? (fun p => p.1 == k)).isSome
  | _ => false

/-- Python `a or b`: `a` if truthy, else `b`. -/
def pyOr (a b : Yaml) : Yaml := if truthy a then a else b

/-! ## Parser: trigger-type extraction (`_extract_trigger_types`) -/

/-- One step of the trigger loop: append the candidate value if it is
truthy and not already present (`if trigger_type and trigger_type not in
trigger_types`). -/
def triggerStep (acc : List Yaml) (t : Yaml) : List Yaml :=
  match t with
  | .map _ =>
    let tt := pyOr (t.get "trigger") (t.get "platform")
    if truthy tt && !(acc.contains tt) then acc ++ [tt] else acc
  | _ => acc

/-- `_extract_trigger_types`: normalize a single mapping to a one-element
list, anything that is not a mapping or list yields no trigger types, then
fold `triggerStep` over the entries. -/
def extract_trigger_types (triggers : Yaml) : List Yaml :=
  match triggers with
  | .map es => [Yaml.map es].foldl triggerStep []
  | .seq items => items.foldl triggerStep []
  | _ => []

/-! ## Parser: blueprint extraction (`_extract_blueprint_info`) -/

/-- `_extract_blueprint_info`: present only when `use_blueprint` is a
truthy mapping; returns its `path` (default `""`) and `input`
(default `{}`). -/
def extract_blueprint_info (automation : Yaml) : Option (Yaml × Yaml) :=
  let ub := automation.get "use_blueprint"
  if truthy ub && ub.isMap then
    some (ub.getD "path" (.str ""), ub.getD "input" (.map []))
  else
    none

/-! ## Parser: action-call extraction (`_extract_action_calls`)

The Python code accumulates into a mutable set while recursing through the
nested-action keys; the set is modelled as a duplicate-free list in
insertion order, and the single recursive closure `extract_from_action`
becomes a mutual block, one function per loop of the original. -/

/-- Looking a key up in a mapping yields a structurally smaller value. -/
theorem sizeOf_get_map_lt (es : List (String × Yaml)) (k : String) :
    sizeOf (Yaml.get (Yaml.map es) k) < sizeOf (Yaml.map es) := by
  simp only [Yaml.get, Yaml.getD]
  cases h : es.find? (fun p => p.1 == k) with
  | none =>
    have : (1 : ℕ) ≤ sizeOf es := by
      cases es with
      | nil => simp
      | cons a l => simp; omega
    simp; omega
  | some p =>
    have hm : p ∈ es := List.mem_of_find?_eq_some h
    have h1 : sizeOf p < sizeOf es := List.sizeOf_lt_of_mem hm
    have h2 : sizeOf p.2 < sizeOf p := by obtain ⟨a, b⟩ := p; simp
    simp; omega

/-- Lexicographic form of `sizeOf_get_map_lt`, shaped like the
termination obligations below. -/
theorem sizeOf_get_map_lex (es : List (String × Yaml)) (k : String)
    (t t' : Nat) :
    Prod.Lex (fun a b : Nat => a < b) (fun a b : Nat => a < b)
      (sizeOf ((Yaml.map es).get k), t) (1 + sizeOf es, t') := by
  apply Prod.Lex.left
  have h := sizeOf_get_map_lt es k
  simpa using h

/-- If the `sequence` value of a mapping is a list, that list is smaller
than the mapping. -/
theorem sizeOf_seq_of_get (es : List (String × Yaml)) (items : List Yaml)
    (h : (Yaml.map es).get "sequence" = Yaml.seq items) :
    sizeOf items < 1 + sizeOf es := by
  have h1 := sizeOf_get_map_lt es "sequence"
  rw [h] at h1
  simp only [Yaml.seq.sizeOf_spec, Yaml.map.sizeOf_spec] at h1
  omega

/-- `set.add`: insert a value if not already present (insertion order). -/
def insertCall (acc : List Yaml) (v : Yaml) : List Yaml :=
  if acc.contains v then acc else acc ++ [v]

mutual

/-- The body of `extract_from_action`: record the node's own
`action`-or-`service` call if truthy, then recurse into the values of the
keys `then`, `else`, `sequence`, `default` and into `choose`. -/
def extract_from_action (acc : List Yaml) (action : Yaml) : List Yaml :=
  match action with
  | .map es =>
    let svc := pyOr ((Yaml.map es).get "action") ((Yaml.map es).get "service")
    let acc1 := if truthy svc then insertCall acc svc else acc
    let acc2 := nested_walk acc1 ((Yaml.map es).get "then")
    let acc3 := nested_walk acc2 ((Yaml.map es).get "else")
    let acc4 := nested_walk acc3 ((Yaml.map es).get "sequence")
    let acc5 := nested_walk acc4 ((Yaml.map es).get "default")
    choose_walk acc5 ((Yaml.map es).get "choose")
  | _ => acc
termination_by (sizeOf action, 0)
decreasing_by
  all_goals simp_wf
  all_goals exact sizeOf_get_map_lex _ _ _ _

/-- `if nested: if isinstance(nested, list) ... elif isinstance(nested,
dict) ...`: recurse into a truthy nested value. -/
def nested_walk (acc : List Yaml) (nested : Yaml) : List Yaml :=
  if truthy nested then
    match nested with
    | .seq items => seq_walk acc items
    | .map es => extract_from_action acc (.map es)
    | _ => acc
  else acc
termination_by (sizeOf nested, 1)
decreasing_by
  all_goals simp_wf
  · exact Prod.Lex.left _ _ (by omega)
  · exact Prod.Lex.right _ (by omega)

/-- `for nested_action in nested: extract_from_action(nested_action)`. -/
def seq_walk (acc : List Yaml) (items : List Yaml) : List Yaml :=
  match items with
  | [] => acc
  | x :: xs => seq_walk (extract_from_action acc x) xs
termination_by (sizeOf items, 0)
decreasing_by
  all_goals simp_wf
  · exact Prod.Lex.left _ _ (by omega)
  · exact Prod.Lex.left _ _ (by omega)

/-- `if isinstance(choose, list): for choice in choose ...`. -/
def choose_walk (acc : List Yaml) (choose : Yaml) : List Yaml :=
  match choose with
  | .seq choices => choices_walk acc choices
  | _ => acc
termination_by (sizeOf choose, 1)
decreasing_by
  all_goals simp_wf
  · exact Prod.Lex.left _ _ (by omega)

/-- For each entry in the `choose` list, process one branch
(`if isinstance(choice, dict)`). -/
def choices_walk (acc : List Yaml) (choices : List Yaml) : List Yaml :=
  match choices with
  | [] => acc
  | c :: cs => choices_walk (choice_step acc c) cs
termination_by (sizeOf choices, 0)
decreasing_by
  all_goals simp_wf
  · exact Prod.Lex.left _ _ (by omega)
  · exact Prod.Lex.left _ _ (by omega)

/-- One `choose` branch: when the branch is a mapping, fetch its
`sequence` value. -/
def choice_step (acc : List Yaml) (c : Yaml) : List Yaml :=
  match c with
  | .map es => seq_step acc ((Yaml.map es).get "sequence")
  | _ => acc
termination_by (sizeOf c, 1)
decreasing_by
  all_goals simp_wf
  all_goals exact sizeOf_get_map_lex _ _ _ _

/-- `if isinstance(sequence, list): for seq_action in sequence: ...`. -/
def seq_step (acc : List Yaml) (sq : Yaml) : List Yaml :=
  match sq with
  | .seq items => seq_walk acc items
  | _ => acc
termination_by (sizeOf sq, 1)
decreasing_by
  all_goals simp_wf
  · exact Prod.Lex.left _ _ (by omega)

end

/-- `_extract_action_calls`: normalize a single mapping to a one-element
list; anything else that is not a list yields no calls; then walk every
action. -/
def extract_action_calls (actions : Yaml) : List Yaml :=
  match actions with
  | .map es => seq_walk [] [Yaml.map es]
  | .seq items => seq_walk [] items
  | _ => []

/-! ## Parser: single-record extraction and top level (`parse_automation_file`) -/

/-- The parser's output record (`_parse_single_automation`'s dict).
`Yaml.null` stands for Python `None` in the value-typed fields. -/
structure AutomationRecord where
  /-- the `alias` field (`alias` is a Lean keyword, hence the underscore) -/
  alias_ : Yaml
  description : Yaml
  trigger_types : List Yaml
  blueprint_path : Yaml
  blueprint_input : Yaml
  action_calls : List Yaml
  start_line : Option Nat
  end_line : Option Nat
  deriving DecidableEq

/-- `_parse_single_automation` on a mapping: pure field extraction (in the
model no exception can occur, so the record is always produced). -/
def parse_single_automation (automation : Yaml)
    (start_line end_line : Option Nat) : AutomationRecord :=
  let bp := extract_blueprint_info automation
  { alias_ := pyOr (pyOr (automation.get "alias") (automation.get "name"))
      (automation.get "id")
  , description := automation.getD "description" (.str "")
  , trigger_types := extract_trigger_types
      (pyOr (automation.get "triggers") (automation.getD "trigger" (.seq [])))
  , blueprint_path := match bp with | some p => p.1 | none => .null
  , blueprint_input := match bp with | some p => p.2 | none => .null
  , action_calls := extract_action_calls
      (pyOr (automation.get "actions") (automation.getD "action" (.seq [])))
  , start_line := start_line
  , end_line := end_line }

/-- A pyyaml `yaml.compose` node: only the features the code inspects are
kept (node kind, scalar-keyed mapping entries, sequence items, and the
0-indexed `start_mark.line` / `end_mark.line`). -/
inductive PNode where
  | scalarN (startL endL : Nat)
  | seqN (startL endL : Nat) (items : List PNode)
  | mapN (startL endL : Nat) (entries : List (String × PNode))

/-- `start_mark.line` of a node (0-indexed). -/
def PNode.startLine : PNode → Nat
  | .scalarN s _ => s
  | .seqN s _ _ => s
  | .mapN s _ _ => s

/-- `end_mark.line` of a node (0-indexed, one past the last line for a
multi-line block node). -/
def PNode.endLine : PNode → Nat
  | .scalarN _ e => e
  | .seqN _ e _ => e
  | .mapN _ e _ => e

/-- Outcome of `yaml.safe_load`: `err` when the library raised (caught by
the surrounding handlers), otherwise the loaded value (`Yaml.null` for an
empty document). -/
inductive LoadResult where
  | err
  | ok (data : Yaml)

/-- The `automations_list` computed by `parse_automation_file`'s
shape-normalization: a top-level sequence is used as is; a mapping with an
`automation` key is unwrapped (wrapping a non-list value in a singleton
list); any other mapping is a single candidate; everything else yields
nothing. -/
def candidates (data : Yaml) : List Yaml :=
  match data with
  | .seq items => items
  | .map es =>
    if (Yaml.map es).hasKey "automation" then
      match (Yaml.map es).get "automation" with
      | .seq items => items
      | v => [v]
    else
      [Yaml.map es]
  | _ => []

/-- The `automation_nodes` computed alongside `candidates` from the
compose tree (`None` when compose failed): mirrors the branch structure of
the source, including taking the first `automation`-keyed entry of a
mapping node and unwrapping sequence nodes. -/
def autoNodes (data : Yaml) (root : Option PNode) : List PNode :=
  match data with
  | .seq _ =>
    match root with
    | some (.seqN _ _ items) => items
    | _ => []
  | .map es =>
    if (Yaml.map es).hasKey "automation" then
      match (Yaml.map es).get "automation" with
      | .seq _ =>
        -- data's automation value is a list: nodes only from a sequence node
        match root with
        | some (.mapN _ _ nentries) =>
          match nentries.find? (fun p => p.1 == "automation") with
          | some (_, .seqN _ _ items) => items
          | _ => []
        | _ => []
      | _ =>
        -- wrapped singleton: [value_node] unless it is a sequence node
        match root with
        | some (.mapN _ _ nentries) =>
          match nentries.find? (fun p => p.1 == "automation") with
          | some (_, .seqN _ _ items) => items
          | some (_, vnode) => [vnode]
          | none => []
        | _ => []
    else
      match root with
      | some r => [r]
      | none => []
  | _ => []

/-- Line bounds for the candidate at `idx`: inside the node range the
start mark is converted to 1-indexed (`+ 1`) while the end mark line is
taken as-is; outside the range both bounds are `None`. -/
def boundsAt (nodes : List PNode) (idx : Nat) : Option Nat × Option Nat :=
  match nodes[idx]? with
  | some n => (some (n.startLine + 1), some n.endLine)
  | none => (none, none)

/-- `parse_automation_file`, as a function of the YAML library's two
outcomes: the `safe_load` result and the `compose` tree.  Candidates that
are not mappings are skipped; each mapping candidate yields one record
with the line bounds of the node at the same index. -/
def parse_automation_file (load : LoadResult) (root : Option PNode) :
    List AutomationRecord :=
  match load with
  | .err => []
  | .ok data =>
    match data with
    | .null => []
    | .seq _ | .map _ =>
      let nodes := autoNodes data root
      (candidates data).enum.filterMap fun p =>
        match p.2 with
        | .map es =>
          some (parse_single_automation (.map es)
            (boundsAt nodes p.1).1 (boundsAt nodes p.1).2)
        | _ => none
    | _ => []

/-! ## SQL: `LIKE` with escape, `_escape_like`, `_exact_match_in_comma_list`

`LIKE` follows the SQL-standard semantics: `'%'` matches any run of
characters, `'_'` any single character; when `useEsc` is set the `'\'`
character quotes the next pattern character (the code passes
`escape="\\"` in every call that embeds user-supplied filter values). -/

/-- SQL `LIKE` on explicit character lists.  `useEsc` selects whether
`'\'` acts as the escape character. -/
def likeM (useEsc : Bool) : List Char → List Char → Bool
  | [], s => s.isEmpty
  | p :: ps, s =>
    if p = '%' then
      s.tails.any fun t => likeM useEsc ps t
    else if p = '_' then
      match s with
      | [] => false
      | _ :: s' => likeM useEsc ps s'
    else if useEsc && p = '\\' then
      match ps with
      | [] => false
      | q :: ps' =>
        match s with
        | [] => false
        | c :: s' => q = c && likeM useEsc ps' s'
    else
      match s with
      | [] => false
      | c :: s' => p = c && likeM useEsc ps s'

/-- Python `value.replace(old, new)` for a single-character needle. -/
def replaceChar (needle : Char) (repl : List Char) (s : List Char) :
    List Char :=
  s.flatMap fun c => if c = needle then repl else [c]

/-- `_escape_like`: escape the escape character itself, then `'%'`,
then `'_'`. -/
def escape_like (v : List Char) : List Char :=
  replaceChar '_' ['\\', '_']
    (replaceChar '%' ['\\', '%']
      (replaceChar '\\' ['\\', '\\'] v))

/-- `_exact_match_in_comma_list`: equality with the whole column, or the
value as first, middle or last comma-delimited element, via escaped `LIKE`
patterns. -/
def exact_match_in_comma_list (column value : List Char) : Bool :=
  column == value
  || likeM true (escape_like value ++ [',', '%']) column
  || likeM true ('%' :: ',' :: (escape_like value ++ [',', '%'])) column
  || likeM true ('%' :: ',' :: escape_like value) column

/-- Python `s.split(",")` on character lists. -/
def splitComma : List Char → List (List Char)
  | [] => [[]]
  | c :: rest =>
    if c = ',' then [] :: splitComma rest
    else
      match splitComma rest with
      | t :: ts => (c :: t) :: ts
      | [] => [[c]]

/-! ## Search engine: data rows and store

Only the columns the search/facet engine reads are modelled.  Nullable
columns are `Option`; timestamps are abstract `Nat` instants (the code
only compares and serializes them). -/

/-- A `repositories` row (the columns the engine reads). -/
structure RepositoryRow where
  id : Nat
  name : String
  owner : String
  description : Option String
  url : String
  stars : Option Int
  deriving DecidableEq

/-- An `automations` row (the columns the engine reads). -/
structure AutomationRow where
  id : Nat
  /-- the `alias` column (`alias` is a Lean keyword, hence the underscore) -/
  alias_ : Option String
  description : Option String
  trigger_types : Option String
  blueprint_path : Option String
  action_calls : Option String
  source_file_path : String
  github_url : String
  start_line : Option Nat
  end_line : Option Nat
  repository_id : Nat
  indexed_at : Option Nat
  deriving DecidableEq

/-- `db.query(Automation, Repository).join(Repository, Automation.repository_id
== Repository.id)`: the inner join of the two tables, in table order. -/
def joinRows (autos : List AutomationRow) (repos : List RepositoryRow) :
    List (AutomationRow × RepositoryRow) :=
  autos.flatMap fun a =>
    (repos.filter fun r => r.id == a.repository_id).map fun r => (a, r)

/-! ## Search engine: predicates -/

/-- SQL `lower()` (ASCII case folding, per character). -/
def lowerChars (l : List Char) : List Char := l.map Char.toLower

/-- `func.lower(column).like(func.lower(pattern))` on a nullable column:
a NULL column never matches. -/
def likeOptCI (pat : String) (col : Option String) : Bool :=
  match col with
  | some s => likeM false (lowerChars pat.toList) (lowerChars s.toList)
  | none => false

/-- The free-text predicate: case-insensitive substring (`%query%`) match
against any of the seven searched columns. -/
def textCond (query : String) (a : AutomationRow) (r : RepositoryRow) : Bool :=
  let pat := "%" ++ query ++ "%"
  likeOptCI pat a.alias_ || likeOptCI pat a.description
    || likeOptCI pat a.trigger_types || likeOptCI pat a.action_calls
    || likeOptCI pat (some r.owner) || likeOptCI pat (some r.name)
    || likeOptCI pat r.description

/-- Python `value.split("/", 1)` viewed as "break at the first slash";
`none` when the string contains no `/`. -/
def splitFirstSlash : List Char → Option (List Char × List Char)
  | [] => none
  | c :: cs =>
    if c = '/' then some ([], cs)
    else (splitFirstSlash cs).map fun p => (c :: p.1, p.2)

/-- Exact-equality blueprint filter (NULL never matches). -/
def blueprintCond (v : String) (a : AutomationRow) : Bool :=
  match a.blueprint_path with
  | some p => p == v
  | none => false

/-- Trigger filter: exact element match inside the comma-joined
`trigger_types` column. -/
def triggerCond (v : String) (a : AutomationRow) : Bool :=
  match a.trigger_types with
  | some s => exact_match_in_comma_list s.toList v.toList
  | none => false

/-- Action filter: exact element match inside the comma-joined
`action_calls` column. -/
def actionCond (v : String) (a : AutomationRow) : Bool :=
  match a.action_calls with
  | some s => exact_match_in_comma_list s.toList v.toList
  | none => false

/-- Action-domain filter: the escaped domain followed by a dot, at the
start of the column or after a comma. -/
def actionDomainCond (v : String) (a : AutomationRow) : Bool :=
  match a.action_calls with
  | some s =>
    likeM true (escape_like v.toList ++ ['.', '%']) s.toList
      || likeM true ('%' :: ',' :: (escape_like v.toList ++ ['.', '%'])) s.toList
  | none => false

/-- Python truthiness of an `Optional[str]` parameter. -/
def activeFilter (f : Option String) : Bool :=
  match f with
  | some v => v != ""
  | none => false

/-- `if some_filter: query = query.filter(cond)`: apply one conditional
filter stage to the rows. -/
def filterStep (f : Option String)
    (cond : String → AutomationRow × RepositoryRow → Bool)
    (rows : List (AutomationRow × RepositoryRow)) :
    List (AutomationRow × RepositoryRow) :=
  match f with
  | some v => if v == "" then rows else rows.filter (cond v)
  | none => rows

/-- `if repo_filter and "/" in repo_filter: ...` — the repository filter
stage: split `owner/name` at the first slash and require exact equality of
both; a filter without `/` is a no-op. -/
def repoFilterStep (f : Option String)
    (rows : List (AutomationRow × RepositoryRow)) :
    List (AutomationRow × RepositoryRow) :=
  match f with
  | some v =>
    if v == "" then rows
    else
      match splitFirstSlash v.toList with
      | some (o, n) =>
        rows.filter fun x => x.2.owner.toList == o && x.2.name.toList == n
      | none => rows
  | none => rows

/-! ## Search engine: result formatting and `search_automations` -/

/-- The nested `repository` object of a formatted search result. -/
structure RepoOut where
  name : String
  owner : String
  description : Option String
  url : String
  stars : Int
  deriving DecidableEq

/-- One formatted search result row. -/
structure SearchResult where
  id : Nat
  /-- the `alias` field (`alias` is a Lean keyword, hence the underscore) -/
  alias_ : Option String
  description : Option String
  trigger_types : List String
  blueprint_path : Option String
  action_calls : List String
  source_file_path : String
  github_url : String
  start_line : Option Nat
  end_line : Option Nat
  repository : RepoOut
  indexed_at : Option Nat
  deriving DecidableEq

/-- `column.split(",") if column else []`. -/
def splitColumn (col : Option String) : List String :=
  match col with
  | some s => if s == "" then [] else (splitComma s.toList).map fun l => String.mk l
  | none => []

/-- Reshape one joined row into the response dictionary. -/
def formatRow (x : AutomationRow × RepositoryRow) : SearchResult :=
  { id := x.1.id
  , alias_ := x.1.alias_
  , description := x.1.description
  , trigger_types := splitColumn x.1.trigger_types
  , blueprint_path := x.1.blueprint_path
  , action_calls := splitColumn x.1.action_calls
  , source_file_path := x.1.source_file_path
  , github_url := x.1.github_url
  , start_line := x.1.start_line
  , end_line := x.1.end_line
  , repository :=
    { name := x.2.name
    , owner := x.2.owner
    , description := x.2.description
    , url := x.2.url
    , stars := x.2.stars.getD 0 }
  , indexed_at := x.1.indexed_at }

/-- Stable insertion of `x` into `l`: `x` goes in front of the first
element it strictly precedes (`gt`), hence after every earlier-seen
element it ties with. -/
def stableInsertBy (gt : α → α → Bool) (x : α) : List α → List α
  | [] => [x]
  | y :: ys => if gt x y then x :: y :: ys else y :: stableInsertBy gt x ys

/-- A stable sort by the strict precedence `gt`: models Python's stable
`sorted` (and an SQL `ORDER BY` made deterministic by keeping the incoming
order among ties). -/
def stableSortBy (gt : α → α → Bool) (l : List α) : List α :=
  l.foldl (fun acc x => stableInsertBy gt x acc) []

/-- `ORDER BY indexed_at DESC, id DESC` as a strict precedence test
(a NULL timestamp sorts last, as the smallest value). -/
def recentGT (x y : AutomationRow × RepositoryRow) : Bool :=
  let ix := x.1.indexed_at.getD 0
  let iy := y.1.indexed_at.getD 0
  iy < ix || (ix == iy && y.1.id < x.1.id)

/-- `_get_recent_automations`: total count of the join, then the
recency-ordered page. -/
def get_recent_automations (autos : List AutomationRow)
    (repos : List RepositoryRow) (page per_page : Nat) :
    List SearchResult × Nat :=
  let joined := joinRows autos repos
  let total := joined.length
  let offset := (page - 1) * per_page
  let sorted := stableSortBy recentGT joined
  (((sorted.drop offset).take per_page).map formatRow, total)

/-- The row set matched by the filtered search query: the join, filtered
by the conjunction of the text predicate (if any) and the active filter
stages, in query order. -/
def searchMatches (autos : List AutomationRow) (repos : List RepositoryRow)
    (query : String)
    (repo_filter blueprint_filter trigger_filter : Option String)
    (action_domain_filter action_filter : Option String) :
    List (AutomationRow × RepositoryRow) :=
  let q0 := joinRows autos repos
  let q1 := if query == "" then q0 else q0.filter fun x => textCond query x.1 x.2
  let q2 := repoFilterStep repo_filter q1
  let q3 := filterStep blueprint_filter (fun v x => blueprintCond v x.1) q2
  let q4 := filterStep trigger_filter (fun v x => triggerCond v x.1) q3
  let q5 := filterStep action_domain_filter (fun v x => actionDomainCond v x.1) q4
  filterStep action_filter (fun v x => actionCond v x.1) q5

/-- The ordered row sequence the returned page is sliced from: the
recency ordering on the browse path, the query row order otherwise. -/
def searchWindowSource (autos : List AutomationRow)
    (repos : List RepositoryRow) (query : String)
    (repo_filter blueprint_filter trigger_filter : Option String)
    (action_domain_filter action_filter : Option String) :
    List (AutomationRow × RepositoryRow) :=
  if query == "" && !activeFilter repo_filter && !activeFilter blueprint_filter
      && !activeFilter trigger_filter && !activeFilter action_domain_filter
      && !activeFilter action_filter then
    stableSortBy recentGT (joinRows autos repos)
  else
    searchMatches autos repos query repo_filter blueprint_filter
      trigger_filter action_domain_filter action_filter

/-- `search_automations`: the browse default when no query and no filters,
otherwise the conjunction of text predicate and active filters, counted
before the `offset/limit` window is applied. -/
def search_automations (autos : List AutomationRow)
    (repos : List RepositoryRow) (query : String) (page per_page : Nat)
    (repo_filter blueprint_filter trigger_filter : Option String)
    (action_domain_filter action_filter : Option String) :
    List SearchResult × Nat :=
  if query == "" && !activeFilter repo_filter && !activeFilter blueprint_filter
      && !activeFilter trigger_filter && !activeFilter action_domain_filter
      && !activeFilter action_filter then
    get_recent_automations autos repos page per_page
  else
    let q6 := searchMatches autos repos query repo_filter blueprint_filter
      trigger_filter action_domain_filter action_filter
    let total := q6.length
    let offset := (page - 1) * per_page
    (((q6.drop offset).take per_page).map formatRow, total)

/-! ## Search engine: facet aggregation (`get_facets`) -/

/-- Python `token.strip()`: drop whitespace from both ends (modelled at
character level so that it evaluates). -/
def trimChars (l : List Char) : List Char :=
  ((l.dropWhile Char.isWhitespace).reverse.dropWhile
    Char.isWhitespace).reverse

/-- Increment a key's count in an insertion-ordered association list
(Python dict `counts[k] = counts.get(k, 0) + 1`). -/
def bumpCount (counts : List (String × Nat)) (k : String) :
    List (String × Nat) :=
  match counts with
  | [] => [(k, 1)]
  | (k', n) :: rest =>
    if k' == k then (k', n + 1) :: rest else (k', n) :: bumpCount rest k

/-- `sorted(counts.items(), key=count, reverse=True)[:20]`. -/
def topCounts (counts : List (String × Nat)) : List (String × Nat) :=
  (stableSortBy (fun a b : String × Nat => b.2 < a.2) counts).take 20

/-- The trigger-facet accumulation loop: split each non-empty comma-joined
value, strip whitespace per token, skip empties, count. -/
def triggerCounts (vals : List (Option String)) : List (String × Nat) :=
  vals.foldl
    (fun counts v =>
      match v with
      | some s =>
        if s == "" then counts
        else
          (splitComma s.toList).foldl
            (fun cts tok =>
              let t := String.mk (trimChars tok)
              if t == "" then cts else bumpCount cts t)
            counts
      | none => counts)
    []

/-- `_extract_action_domain`: the part before the first dot, or `""` when
there is no dot. -/
def extract_action_domain (action_call : String) : String :=
  if action_call.toList.contains '.' then
    String.mk (action_call.toList.takeWhile fun c => c != '.')
  else ""

/-- The action-domain-facet accumulation loop: per stripped token, count
its domain when one exists. -/
def domainCounts (vals : List (Option String)) : List (String × Nat) :=
  vals.foldl
    (fun counts v =>
      match v with
      | some s =>
        if s == "" then counts
        else
          (splitComma s.toList).foldl
            (fun cts tok =>
              let t := String.mk (trimChars tok)
              let d := extract_action_domain t
              if d == "" then cts else bumpCount cts d)
            counts
      | none => counts)
    []

/-- The action-facet accumulation loop (same shape as the trigger one,
over `action_calls`). -/
def actionCounts (vals : List (Option String)) : List (String × Nat) :=
  triggerCounts vals

/-- SQL `max` over a nullable integer group: NULLs are ignored. -/
def maxOptInt : Option Int → Option Int → Option Int
  | none, b => b
  | a, none => a
  | some a, some b => some (max a b)

/-- Update the `(owner, name)` group of the repository aggregation with
one more row (`max(stars)`, `count(id)`), keeping first-seen group
order. -/
def bumpRepo (acc : List ((String × String) × Option Int × Nat))
    (key : String × String) (stars : Option Int) :
    List ((String × String) × Option Int × Nat) :=
  match acc with
  | [] => [(key, stars, 1)]
  | (k, st, n) :: rest =>
    if k == key then (k, maxOptInt st stars, n + 1) :: rest
    else (k, st, n) :: bumpRepo rest key stars

/-- `GROUP BY owner, name` with `max(stars)` and `count(id)`. -/
def repoAgg (rows : List (AutomationRow × RepositoryRow)) :
    List ((String × String) × Option Int × Nat) :=
  rows.foldl (fun acc x => bumpRepo acc (x.2.owner, x.2.name) x.2.stars) []

/-- Order the repository groups by count descending, cap at 20, and
format (`stars or 0`). -/
def topRepoCounts (groups : List ((String × String) × Option Int × Nat)) :
    List (String × String × Int × Nat) :=
  ((stableSortBy (fun a b : (String × String) × Option Int × Nat =>
      b.2.2 < a.2.2) groups).take 20).map
    fun g => (g.1.1, g.1.2, g.2.1.getD 0, g.2.2)

/-- The blueprint-facet aggregation (`GROUP BY blueprint_path` with
counts, in first-seen order). -/
def blueprintCounts (vals : List (Option String)) : List (String × Nat) :=
  vals.foldl
    (fun cts v =>
      match v with
      | some p => bumpCount cts p
      | none => cts)
    []

/-- The text-filtered base query shared by every facet dimension. -/
def textBase (autos : List AutomationRow) (repos : List RepositoryRow)
    (query : String) : List (AutomationRow × RepositoryRow) :=
  let q0 := joinRows autos repos
  if query == "" then q0 else q0.filter fun x => textCond query x.1 x.2

/-- The facet response: repositories as `(owner, name, stars, count)`,
the other four dimensions as `(value, count)` lists. -/
structure Facets where
  repositories : List (String × String × Int × Nat)
  blueprints : List (String × Nat)
  triggers : List (String × Nat)
  action_domains : List (String × Nat)
  actions : List (String × Nat)
  deriving DecidableEq

/-- `get_facets`: for each dimension, start from the text-filtered base
query and apply every other dimension's active filter (in source order),
then aggregate, order by count descending and cap at 20. -/
def get_facets (autos : List AutomationRow) (repos : List RepositoryRow)
    (query : String)
    (repo_filter blueprint_filter trigger_filter : Option String)
    (action_domain_filter action_filter : Option String) : Facets :=
  let base := textBase autos repos query
  let r1 := filterStep blueprint_filter (fun v x => blueprintCond v x.1) base
  let r2 := filterStep trigger_filter (fun v x => triggerCond v x.1) r1
  let r3 := filterStep action_domain_filter (fun v x => actionDomainCond v x.1) r2
  let r4 := filterStep action_filter (fun v x => actionCond v x.1) r3
  let b1 := repoFilterStep repo_filter base
  let b2 := filterStep trigger_filter (fun v x => triggerCond v x.1) b1
  let b3 := filterStep action_domain_filter (fun v x => actionDomainCond v x.1) b2
  let b4 := filterStep action_filter (fun v x => actionCond v x.1) b3
  let t1 := repoFilterStep repo_filter base
  let t2 := filterStep blueprint_filter (fun v x => blueprintCond v x.1) t1
  let t3 := filterStep action_domain_filter (fun v x => actionDomainCond v x.1) t2
  let t4 := filterStep action_filter (fun v x => actionCond v x.1) t3
  let d1 := repoFilterStep repo_filter base
  let d2 := filterStep blueprint_filter (fun v x => blueprintCond v x.1) d1
  let d3 := filterStep trigger_filter (fun v x => triggerCond v x.1) d2
  let d4 := filterStep action_filter (fun v x => actionCond v x.1) d3
  let a1 := repoFilterStep repo_filter base
  let a2 := filterStep blueprint_filter (fun v x => blueprintCond v x.1) a1
  let a3 := filterStep trigger_filter (fun v x => triggerCond v x.1) a2
  let a4 := filterStep action_domain_filter (fun v x => actionDomainCond v x.1) a3
  { repositories := topRepoCounts (repoAgg r4)
  , blueprints := topCounts (blueprintCounts
      ((b4.filter fun x => x.1.blueprint_path.isSome).map
        fun x => x.1.blueprint_path))
  , triggers := topCounts (triggerCounts
      ((t4.filter fun x => x.1.trigger_types.isSome).map
        fun x => x.1.trigger_types))
  , action_domains := topCounts (domainCounts
      ((d4.filter fun x => x.1.action_calls.isSome).map
        fun x => x.1.action_calls))
  , actions := topCounts (actionCounts
      ((a4.filter fun x => x.1.action_calls.isSome).map
        fun x => x.1.action_calls)) }

/-! ## Search engine: the `try/except` storage boundary -/

/-- All-empty facet response (the `except` branch of `get_facets`). -/
def emptyFacets : Facets :=
  { repositories := [], blueprints := [], triggers := []
  , action_domains := [], actions := [] }

/-- `search_automations` seen across its `try/except` boundary: the store
handle either yields the two tables or raises; any storage failure
degrades to `([], 0)`. -/
def search_automations_db
    (db : Except String (List AutomationRow × List RepositoryRow))
    (query : String) (page per_page : Nat)
    (repo_filter blueprint_filter trigger_filter : Option String)
    (action_domain_filter action_filter : Option String) :
    List SearchResult × Nat :=
  match db with
  | .error _ => ([], 0)
  | .ok (autos, repos) =>
    search_automations autos repos query page per_page
      repo_filter blueprint_filter trigger_filter
      action_domain_filter action_filter

/-- `get_facets` seen across its `try/except` boundary: any storage
failure degrades to the all-empty facet response. -/
def get_facets_db
    (db : Except String (List AutomationRow × List RepositoryRow))
    (query : String)
    (repo_filter blueprint_filter trigger_filter : Option String)
    (action_domain_filter action_filter : Option String) : Facets :=
  match db with
  | .error _ => emptyFacets
  | .ok (autos, repos) =>
    get_facets autos repos query
      repo_filter blueprint_filter trigger_filter
      action_domain_filter action_filter

/-! ## Claim-side reachability of action calls

`Reaches a v` transcribes the specification's description of action
extraction: `v` is a (truthy) `action`-or-`service` value reachable from
the action node `a` by recursing through the values of the keys `then`,
`else`, `sequence`, `default` (each a single mapping or a list of
mappings) and through each `choose` branch mapping's `sequence` list. -/

inductive Reaches : Yaml → Yaml → Prop where
  | call (a : Yaml)
      (h : truthy (pyOr (a.get "action") (a.get "service")) = true) :
      Reaches a (pyOr (a.get "action") (a.get "service"))
  | nestedMap (a v : Yaml) (k : String) (es : List (String × Yaml))
      (hk : k = "then" ∨ k = "else" ∨ k = "sequence" ∨ k = "default")
      (hget : a.get k = .map es) (htr : truthy (.map es) = true)
      (hr : Reaches (.map es) v) : Reaches a v
  | nestedSeq (a v x : Yaml) (k : String) (items : List Yaml)
      (hk : k = "then" ∨ k = "else" ∨ k = "sequence" ∨ k = "default")
      (hget : a.get k = .seq items) (htr : truthy (.seq items) = true)
      (hx : x ∈ items) (hr : Reaches x v) : Reaches a v
  | chooseBranch (a v x : Yaml) (choices : List Yaml)
      (es : List (String × Yaml)) (items : List Yaml)
      (hget : a.get "choose" = .seq choices) (hc : Yaml.map es ∈ choices)
      (hsq : (Yaml.map es).get "sequence" = .seq items)
      (hx : x ∈ items) (hr : Reaches x v) : Reaches a v

/-- Reachability through one truthy nested value (the shape `nested_walk`
handles): recurse into each element of a list, or into a mapping. -/
def NReach (b v : Yaml) : Prop :=
  truthy b = true ∧
    ((∃ items, b = Yaml.seq items ∧ ∃ x ∈ items, Reaches x v)
      ∨ (∃ es, b = Yaml.map es ∧ Reaches b v))

/-- Reachability through one `choose` branch: a mapping whose `sequence`
value is a list one of whose elements reaches `v`. -/
def CStep (c v : Yaml) : Prop :=
  ∃ es items, c = Yaml.map es
    ∧ (Yaml.map es).get "sequence" = Yaml.seq items
    ∧ ∃ x ∈ items, Reaches x v

/-- Reachability through a `choose` value: a list one of whose branches
steps to `v`. -/
def CReach (ch v : Yaml) : Prop :=
  ∃ choices, ch = Yaml.seq choices ∧ ∃ c ∈ choices, CStep c v

/-- Reachability through a branch's `sequence` value (the shape
`seq_step` handles). -/
def SStep (sq v : Yaml) : Prop :=
  ∃ items, sq = Yaml.seq items ∧ ∃ x ∈ items, Reaches x v

/-- Stable de-duplication keeping the first occurrence of each value
(the claim-side description of the trigger de-duplication). -/
def dedupKeepFirst : List Yaml → List Yaml
  | [] => []
  | x :: xs => x :: dedupKeepFirst (xs.filter fun y => !(y == x))
termination_by l => l.length
decreasing_by
  simp_wf
  exact Nat.lt_succ_of_le (List.length_filter_le _ _)

/-- The claim-side candidate value of one trigger entry: `trigger`
(current) falling back to `platform` (legacy), kept only when non-empty
(truthy). -/
def triggerCandidate (t : Yaml) : Option Yaml :=
  match t with
  | .map _ =>
    let tt := pyOr (t.get "trigger") (t.get "platform")
    if truthy tt then some tt else none
  | _ => none

/-- The claim-side candidate sequence of a trigger configuration, after
the single-mapping normalization. -/
def triggerCandidates (triggers : Yaml) : List Yaml :=
  match triggers with
  | .map es => [Yaml.map es].filterMap triggerCandidate
  | .seq items => items.filterMap triggerCandidate
  | _ => []

/-- Repository row of the pagination example. -/
def exRepo : RepositoryRow :=
  { id := 1, name := "repo", owner := "owner", description := none
  , url := "https", stars := some 5 }

/-- One automation row of the pagination example. -/
def exAutoRow (i : Nat) : AutomationRow :=
  { id := i, alias_ := some "Morning Automation", description := none
  , trigger_types := some "state", blueprint_path := none
  , action_calls := some "light.turn_on", source_file_path := "a.yaml"
  , github_url := "gh", start_line := none, end_line := none
  , repository_id := 1, indexed_at := some i }

/-- 35 stored automations for the pagination example. -/
def exDb : List AutomationRow := (List.range 35).map exAutoRow

/-- Claim-side pointwise reading of one conditional filter stage. -/
def stepPass (f : Option String)
    (cond : String → AutomationRow × RepositoryRow → Bool)
    (x : AutomationRow × RepositoryRow) : Bool :=
  match f with
  | some v => if v == "" then true else cond v x
  | none => true

/-- Claim-side pointwise reading of the repository filter stage. -/
def repoPass (f : Option String) (x : AutomationRow × RepositoryRow) :
    Bool :=
  match f with
  | some v =>
    if v == "" then true
    else
      match splitFirstSlash v.toList with
      | some (o, n) => x.2.owner.toList == o && x.2.name.toList == n
      | none => true
  | none => true

/-- The conjunction of the five filter stages; a facet dimension passes
its own slot as `none` ("self is excluded, others applied"). -/
def exceptPred (rf bf tf adf af : Option String)
    (x : AutomationRow × RepositoryRow) : Bool :=
  repoPass rf x
    && stepPass bf (fun v y => blueprintCond v y.1) x
    && stepPass tf (fun v y => triggerCond v y.1) x
    && stepPass adf (fun v y => actionDomainCond v y.1) x
    && stepPass af (fun v y => actionCond v y.1) x

/-- The automation row of the blueprint-facet demonstration: it uses no
blueprint but has a trigger and an action. -/
def exNoBpRow : AutomationRow :=
  { id := 1, alias_ := some "a", description := none
  , trigger_types := some "state", blueprint_path := none
  , action_calls := some "light.turn_on", source_file_path := "a.yaml"
  , github_url := "gh", start_line := none, end_line := none
  , repository_id := 1, indexed_at := none }

/-- The two-character escape of a special `LIKE` character, the
one-character identity otherwise (claim-side reading of `_escape_like`). -/
def escChar (c : Char) : List Char :=
  if c = '\\' ∨ c = '%' ∨ c = '_' then ['\\', c] else [c]

/-! # Theorems -/

/-! ## C9: storage failures degrade to empty results -/

/-- C9.  For every store state and arguments, an exception arising at the
storage boundary does not propagate: `search_automations` returns the
empty list with total 0 and `get_facets` returns the well-typed response
with all five facet lists empty. -/
theorem search_and_facets_degrade_on_storage_error :
    ∀ (e : String) (query : String) (page per_page : Nat)
      (rf bf tf adf af : Option String),
      search_automations_db (.error e) query page per_page rf bf tf adf af
          = ([], 0)
        ∧ get_facets_db (.error e) query rf bf tf adf af = emptyFacets :=
  fun _ _ _ _ _ _ _ _ _ => ⟨rfl, rfl⟩

/-! ## C3: the parser never raises and skips bad entries locally -/

/-- Auxiliary: one record per mapping candidate, with the enumeration
index only feeding the line bounds. -/
theorem length_filterMap_mapLike
    (g : Nat × Yaml → Option AutomationRecord)
    (hg : ∀ p, (g p).isSome = p.2.isMap) :
    ∀ (n : Nat) (items : List Yaml),
      ((items.enumFrom n).filterMap g).length
        = (items.filter Yaml.isMap).length := by
  intro n items
  induction items generalizing n with
  | nil => simp
  | cons y ys ih =>
    have hy := hg (n, y)
    cases hgy : g (n, y) with
    | none =>
      rw [hgy] at hy
      have hmap : y.isMap = false := by simpa using hy.symm
      simp [List.enumFrom, List.filterMap_cons, hgy, List.filter_cons, hmap,
        ih (n + 1)]
    | some r =>
      rw [hgy] at hy
      have hmap : y.isMap = true := by simpa using hy.symm
      simp [List.enumFrom, List.filterMap_cons, hgy, List.filter_cons, hmap,
        ih (n + 1)]

/-- C3.  `parse` is total and never raises: a YAML-library failure, an
empty document (`null`), and scalar top-level shapes all yield the empty
record sequence; and over a candidate list every non-mapping entry is
skipped while each mapping sibling still contributes exactly one record
(the record count equals the number of mapping candidates). -/
theorem parse_total_and_skips_non_mapping_entries :
    (∀ root, parse_automation_file .err root = [])
    ∧ (∀ root, parse_automation_file (.ok .null) root = [])
    ∧ (∀ s root, parse_automation_file (.ok (.str s)) root = [])
    ∧ (∀ n root, parse_automation_file (.ok (.int n)) root = [])
    ∧ (∀ b root, parse_automation_file (.ok (.bool b)) root = [])
    ∧ (∀ items root,
        (parse_automation_file (.ok (.seq items)) root).length
          = (items.filter Yaml.isMap).length) := by
  refine ⟨fun _ => rfl, fun _ => rfl, fun _ _ => rfl, fun _ _ => rfl,
    fun _ _ => rfl, fun items root => ?_⟩
  show ((items.enumFrom 0).filterMap _).length = _
  apply length_filterMap_mapLike
  intro p
  cases p.2 <;> simp [Yaml.isMap]

/-! ## C4: line-span policy -/

/-- First automation of the two-automation line-span example (pyyaml marks
it at 0-indexed start line 0, end mark line 6 when it occupies 1-indexed
lines 1-6 of a list with no blank separators). -/
def exAuto1 : Yaml := .map [("alias", .str "First Automation")]

/-- Second automation of the two-automation line-span example (start mark
line 6, end mark line 12 for 1-indexed lines 7-12). -/
def exAuto2 : Yaml := .map [("alias", .str "Second Automation")]

/-- C4.  Line-span policy: inside the node range, `start_line` is the
node's 0-indexed start mark line plus one while `end_line` is the node's
end mark line taken as-is (not incremented); parsed records take their
bounds from the node at their candidate index; when no position tree is
obtainable every bound is `None`; and on the two-automation example
occupying lines 1-6 and 7-12 the reported spans are exactly `(1, 6)` and
`(7, 12)`. -/
theorem parse_line_span_policy :
    (∀ (nodes : List PNode) (idx : Nat) (n : PNode), nodes[idx]? = some n →
        boundsAt nodes idx = (some (n.startLine + 1), some n.endLine))
    ∧ (∀ (nodes : List PNode) (idx : Nat), nodes[idx]? = none →
        boundsAt nodes idx = (none, none))
    ∧ (∀ (data : Yaml) (idx : Nat),
        boundsAt (autoNodes data none) idx = (none, none))
    ∧ (∀ (items : List Yaml) (root : Option PNode),
        parse_automation_file (.ok (.seq items)) root
          = items.enum.filterMap fun p =>
              match p.2 with
              | .map es =>
                some (parse_single_automation (.map es)
                  (boundsAt (autoNodes (.seq items) root) p.1).1
                  (boundsAt (autoNodes (.seq items) root) p.1).2)
              | _ => none)
    ∧ ((parse_automation_file (.ok (.seq [exAuto1, exAuto2]))
          (some (.seqN 0 12 [.mapN 0 6 [], .mapN 6 12 []]))).map
        (fun r => (r.start_line, r.end_line))
        = [(some 1, some 6), (some 7, some 12)]) := by
  refine ⟨?_, ?_, ?_, ?_, ?_⟩
  · intro nodes idx n h
    simp [boundsAt, h]
  · intro nodes idx h
    simp [boundsAt, h]
  · intro data idx
    have hempty : autoNodes data none = [] := by
      cases data with
      | map es =>
        simp only [autoNodes]
        by_cases h : (Yaml.map es).hasKey "automation" = true
        · rw [if_pos h]
          cases hv : (Yaml.map es).get "automation" <;> rfl
        · rw [if_neg h]
      | null => rfl
      | bool b => rfl
      | int n => rfl
      | str s => rfl
      | seq items => rfl
    rw [hempty]
    rfl
  · intro items root
    rfl
  · decide

/-- Witness for the hypotheses of `parse_line_span_policy`: the bound
formulas applied at a concrete node list. -/
theorem parse_line_span_policy_witness :
    boundsAt [PNode.mapN 6 12 []] 0 = (some 7, some 12)
      ∧ boundsAt [PNode.mapN 6 12 []] 3 = (none, none) :=
  ⟨parse_line_span_policy.1 [PNode.mapN 6 12 []] 0 (PNode.mapN 6 12 []) rfl,
   parse_line_span_policy.2.1 [PNode.mapN 6 12 []] 3 rfl⟩

/-! ## C5/C6 machinery: membership in the action-call accumulator -/

/-- `Yaml.get` on a non-mapping always gives `null`. -/
theorem get_non_map {a : Yaml} (h : a.isMap = false) (k : String) :
    a.get k = .null := by
  cases a <;> simp_all [Yaml.isMap, Yaml.get, Yaml.getD]

/-- Nothing is reachable from a non-mapping node. -/
theorem not_reaches_of_non_map {a v : Yaml} (h : a.isMap = false) :
    ¬ Reaches a v := by
  intro hr
  cases hr with
  | call _ hcall =>
    rw [get_non_map h, get_non_map h] at hcall
    simp [pyOr, truthy] at hcall
  | nestedMap _ _ k es hk hget htr hr => rw [get_non_map h] at hget; cases hget
  | nestedSeq _ _ x k items hk hget htr hx hr =>
    rw [get_non_map h] at hget; cases hget
  | chooseBranch _ _ x choices es items hget hc hsq hx hr =>
    rw [get_non_map h] at hget; cases hget

/-- Membership helper used in every non-mapping case. -/
theorem mem_iff_or_of_not {P : Prop} {acc : List Yaml} {v : Yaml}
    (h : ¬ P) : v ∈ acc ↔ v ∈ acc ∨ P :=
  ⟨Or.inl, fun hh => hh.resolve_right h⟩

/-- `insertCall` adds exactly the inserted value to the membership. -/
theorem mem_insertCall (acc : List Yaml) (w v : Yaml) :
    v ∈ insertCall acc w ↔ v ∈ acc ∨ v = w := by
  unfold insertCall
  by_cases h : acc.contains w
  · rw [if_pos h]
    have hw : w ∈ acc := by
      obtain ⟨x, hx, hbeq⟩ := List.contains_iff_exists_mem_beq.1 h
      rwa [show w = x from eq_of_beq hbeq]
    exact ⟨Or.inl, fun hh => hh.elim id (fun he => he ▸ hw)⟩
  · rw [if_neg h]
    simp

/-- Characterization of `NReach` by the shape of the nested value. -/
theorem nreach_iff (b v : Yaml) :
    NReach b v ↔
      truthy b = true ∧
        (match b with
         | .seq items => ∃ x ∈ items, Reaches x v
         | .map _ => Reaches b v
         | _ => False) := by
  unfold NReach
  cases b <;> simp

/-- Characterization of `CStep` by the shape of the branch. -/
theorem cstep_iff (c v : Yaml) :
    CStep c v ↔
      (match c with
       | .map es =>
         (match (Yaml.map es).get "sequence" with
          | .seq items => ∃ x ∈ items, Reaches x v
          | _ => False)
       | _ => False) := by
  unfold CStep
  cases c with
  | map es =>
    simp only [Yaml.map.injEq]
    constructor
    · rintro ⟨es', items, hes, hsq, hx⟩
      subst hes
      rw [hsq]
      exact hx
    · intro h
      cases hsq : (Yaml.map es).get "sequence" with
      | seq items => rw [hsq] at h; exact ⟨es, items, rfl, hsq, h⟩
      | null => rw [hsq] at h; cases h
      | bool b => rw [hsq] at h; cases h
      | int n => rw [hsq] at h; cases h
      | str s => rw [hsq] at h; cases h
      | map es' => rw [hsq] at h; cases h
  | null => simp
  | bool b => simp
  | int n => simp
  | str s => simp
  | seq items => simp

/-- Characterization of `CReach` by the shape of the `choose` value. -/
theorem creach_iff (ch v : Yaml) :
    CReach ch v ↔
      (match ch with
       | .seq choices => ∃ c ∈ choices, CStep c v
       | _ => False) := by
  unfold CReach
  cases ch <;> simp

/-- Inversion of `Reaches` at a mapping node: either the node's own call,
or a step through one of the four nested keys, or through `choose`. -/
theorem reaches_map_iff (es : List (String × Yaml)) (v : Yaml) :
    Reaches (Yaml.map es) v ↔
      (truthy (pyOr ((Yaml.map es).get "action")
          ((Yaml.map es).get "service")) = true
        ∧ v = pyOr ((Yaml.map es).get "action") ((Yaml.map es).get "service"))
      ∨ NReach ((Yaml.map es).get "then") v
      ∨ NReach ((Yaml.map es).get "else") v
      ∨ NReach ((Yaml.map es).get "sequence") v
      ∨ NReach ((Yaml.map es).get "default") v
      ∨ CReach ((Yaml.map es).get "choose") v := by
  constructor
  · intro hr
    cases hr with
    | call _ hcall => exact Or.inl ⟨hcall, rfl⟩
    | nestedMap _ _ k es' hk hget htr hr =>
      have hn : NReach ((Yaml.map es).get k) v := by
        rw [hget]; exact ⟨htr, Or.inr ⟨es', rfl, hr⟩⟩
      rcases hk with rfl | rfl | rfl | rfl
      · exact Or.inr (Or.inl hn)
      · exact Or.inr (Or.inr (Or.inl hn))
      · exact Or.inr (Or.inr (Or.inr (Or.inl hn)))
      · exact Or.inr (Or.inr (Or.inr (Or.inr (Or.inl hn))))
    | nestedSeq _ _ x k items hk hget htr hx hr =>
      have hn : NReach ((Yaml.map es).get k) v := by
        rw [hget]; exact ⟨htr, Or.inl ⟨items, rfl, x, hx, hr⟩⟩
      rcases hk with rfl | rfl | rfl | rfl
      · exact Or.inr (Or.inl hn)
      · exact Or.inr (Or.inr (Or.inl hn))
      · exact Or.inr (Or.inr (Or.inr (Or.inl hn)))
      · exact Or.inr (Or.inr (Or.inr (Or.inr (Or.inl hn))))
    | chooseBranch _ _ x choices es' items hget hc hsq hx hr =>
      refine Or.inr (Or.inr (Or.inr (Or.inr (Or.inr ?_))))
      rw [hget]
      exact ⟨choices, rfl, Yaml.map es', hc, es', items, rfl, hsq, x, hx, hr⟩
  · intro h
    rcases h with ⟨hcall, rfl⟩ | hn | hn | hn | hn | hc
    · exact Reaches.call _ hcall
    · rcases hn with ⟨htr, ⟨items, hget, x, hx, hr⟩ | ⟨es', hget, hr⟩⟩
      · exact Reaches.nestedSeq _ _ x "then" items (by simp) hget
          (hget ▸ htr) hx hr
      · exact Reaches.nestedMap _ _ "then" es' (by simp) hget
          (hget ▸ htr) (hget ▸ hr)
    · rcases hn with ⟨htr, ⟨items, hget, x, hx, hr⟩ | ⟨es', hget, hr⟩⟩
      · exact Reaches.nestedSeq _ _ x "else" items (by simp) hget
          (hget ▸ htr) hx hr
      · exact Reaches.nestedMap _ _ "else" es' (by simp) hget
          (hget ▸ htr) (hget ▸ hr)
    · rcases hn with ⟨htr, ⟨items, hget, x, hx, hr⟩ | ⟨es', hget, hr⟩⟩
      · exact Reaches.nestedSeq _ _ x "sequence" items (by simp) hget
          (hget ▸ htr) hx hr
      · exact Reaches.nestedMap _ _ "sequence" es' (by simp) hget
          (hget ▸ htr) (hget ▸ hr)
    · rcases hn with ⟨htr, ⟨items, hget, x, hx, hr⟩ | ⟨es', hget, hr⟩⟩
      · exact Reaches.nestedSeq _ _ x "default" items (by simp) hget
          (hget ▸ htr) hx hr
      · exact Reaches.nestedMap _ _ "default" es' (by simp) hget
          (hget ▸ htr) (hget ▸ hr)
    · rcases hc with ⟨choices, hget, c, hcm, es', items, rfl, hsq, x, hx, hr⟩
      exact Reaches.chooseBranch _ _ x choices es' items hget hcm hsq hx hr


/-- Characterization of `SStep` by the shape of the `sequence` value. -/
theorem sstep_iff (sq v : Yaml) :
    SStep sq v ↔
      (match sq with
       | .seq items => ∃ x ∈ items, Reaches x v
       | _ => False) := by
  unfold SStep
  cases sq <;> simp

/-- `CStep` through a branch is `SStep` through the branch's `sequence`
value. -/
theorem cstep_iff_sstep (c v : Yaml) :
    CStep c v ↔
      (match c with
       | .map es => SStep ((Yaml.map es).get "sequence") v
       | _ => False) := by
  rw [cstep_iff]
  cases c <;> simp [sstep_iff]

mutual

/-- Membership in the accumulator returned by `extract_from_action`:
previous members plus the values reachable from the node. -/
theorem mem_extract_from_action (acc : List Yaml) (action v : Yaml) :
    v ∈ extract_from_action acc action ↔ v ∈ acc ∨ Reaches action v := by
  cases action with
  | map es =>
    rw [extract_from_action]
    rw [mem_choose_walk, mem_nested_walk, mem_nested_walk, mem_nested_walk,
      mem_nested_walk]
    have hif : v ∈ (if truthy (pyOr ((Yaml.map es).get "action")
          ((Yaml.map es).get "service")) = true then
            insertCall acc (pyOr ((Yaml.map es).get "action")
              ((Yaml.map es).get "service"))
          else acc) ↔
        v ∈ acc ∨ (truthy (pyOr ((Yaml.map es).get "action")
            ((Yaml.map es).get "service")) = true
          ∧ v = pyOr ((Yaml.map es).get "action")
              ((Yaml.map es).get "service")) := by
      by_cases h : truthy (pyOr ((Yaml.map es).get "action")
          ((Yaml.map es).get "service")) = true
      · rw [if_pos h, mem_insertCall]
        simp [h]
      · rw [if_neg h]
        simp [h]
    rw [hif, reaches_map_iff]
    tauto
  | null =>
    simp only [extract_from_action]
    exact mem_iff_or_of_not (not_reaches_of_non_map rfl)
  | bool b =>
    simp only [extract_from_action]
    exact mem_iff_or_of_not (not_reaches_of_non_map rfl)
  | int n =>
    simp only [extract_from_action]
    exact mem_iff_or_of_not (not_reaches_of_non_map rfl)
  | str s =>
    simp only [extract_from_action]
    exact mem_iff_or_of_not (not_reaches_of_non_map rfl)
  | seq items =>
    simp only [extract_from_action]
    exact mem_iff_or_of_not (not_reaches_of_non_map rfl)
termination_by (sizeOf action, 0)
decreasing_by
  all_goals simp_wf
  all_goals exact sizeOf_get_map_lex _ _ _ _

/-- Membership through one `nested_walk` stage. -/
theorem mem_nested_walk (acc : List Yaml) (nested v : Yaml) :
    v ∈ nested_walk acc nested ↔ v ∈ acc ∨ NReach nested v := by
  rw [nreach_iff]
  cases nested with
  | seq items =>
    simp only [nested_walk]
    by_cases h : truthy (Yaml.seq items) = true
    · rw [if_pos h, mem_seq_walk]
      simp [h]
    · rw [if_neg h]
      simp [h]
  | map es =>
    simp only [nested_walk]
    by_cases h : truthy (Yaml.map es) = true
    · rw [if_pos h, mem_extract_from_action]
      simp [h]
    · rw [if_neg h]
      simp [h]
  | null =>
    simp only [nested_walk]
    simp [truthy]
  | bool b =>
    simp only [nested_walk]
    simp
  | int n =>
    simp only [nested_walk]
    simp
  | str s =>
    simp only [nested_walk]
    simp
termination_by (sizeOf nested, 1)
decreasing_by
  all_goals simp_wf
  · exact Prod.Lex.left _ _ (by omega)
  · exact Prod.Lex.right _ (by omega)

/-- Membership through `seq_walk` over a list of action nodes. -/
theorem mem_seq_walk (acc : List Yaml) (items : List Yaml) (v : Yaml) :
    v ∈ seq_walk acc items ↔ v ∈ acc ∨ ∃ x ∈ items, Reaches x v := by
  cases items with
  | nil =>
    simp only [seq_walk]
    simp
  | cons x xs =>
    simp only [seq_walk]
    rw [mem_seq_walk, mem_extract_from_action]
    constructor
    · rintro ((h | h) | ⟨y, hy, h⟩)
      · exact Or.inl h
      · exact Or.inr ⟨x, List.mem_cons_self x xs, h⟩
      · exact Or.inr ⟨y, List.mem_cons_of_mem x hy, h⟩
    · rintro (h | ⟨y, hy, h⟩)
      · exact Or.inl (Or.inl h)
      · rcases List.mem_cons.1 hy with rfl | hy'
        · exact Or.inl (Or.inr h)
        · exact Or.inr ⟨y, hy', h⟩
termination_by (sizeOf items, 0)
decreasing_by
  all_goals simp_wf
  · exact Prod.Lex.left _ _ (by omega)
  · exact Prod.Lex.left _ _ (by omega)

/-- Membership through `choose_walk`. -/
theorem mem_choose_walk (acc : List Yaml) (choose v : Yaml) :
    v ∈ choose_walk acc choose ↔ v ∈ acc ∨ CReach choose v := by
  rw [creach_iff]
  cases choose with
  | seq choices =>
    simp only [choose_walk]
    exact mem_choices_walk acc choices v
  | null =>
    simp only [choose_walk]
    exact mem_iff_or_of_not (by simp)
  | bool b =>
    simp only [choose_walk]
    exact mem_iff_or_of_not (by simp)
  | int n =>
    simp only [choose_walk]
    exact mem_iff_or_of_not (by simp)
  | str s =>
    simp only [choose_walk]
    exact mem_iff_or_of_not (by simp)
  | map es =>
    simp only [choose_walk]
    exact mem_iff_or_of_not (by simp)
termination_by (sizeOf choose, 1)
decreasing_by
  all_goals simp_wf
  · exact Prod.Lex.left _ _ (by omega)

/-- Membership through the `choose`-branch loop. -/
theorem mem_choices_walk (acc : List Yaml) (choices : List Yaml)
    (v : Yaml) :
    v ∈ choices_walk acc choices ↔ v ∈ acc ∨ ∃ c ∈ choices, CStep c v := by
  cases choices with
  | nil =>
    simp only [choices_walk]
    simp
  | cons c cs =>
    simp only [choices_walk]
    rw [mem_choices_walk, mem_choice_step]
    constructor
    · rintro ((h | h) | ⟨c', hc', h⟩)
      · exact Or.inl h
      · exact Or.inr ⟨c, List.mem_cons_self c cs, h⟩
      · exact Or.inr ⟨c', List.mem_cons_of_mem c hc', h⟩
    · rintro (h | ⟨c', hc', h⟩)
      · exact Or.inl (Or.inl h)
      · rcases List.mem_cons.1 hc' with rfl | hc''
        · exact Or.inl (Or.inr h)
        · exact Or.inr ⟨c', hc'', h⟩
termination_by (sizeOf choices, 0)
decreasing_by
  all_goals simp_wf
  · exact Prod.Lex.left _ _ (by omega)
  · exact Prod.Lex.left _ _ (by omega)

/-- Membership through one `choose` branch. -/
theorem mem_choice_step (acc : List Yaml) (c v : Yaml) :
    v ∈ choice_step acc c ↔ v ∈ acc ∨ CStep c v := by
  rw [cstep_iff_sstep]
  cases c with
  | map es =>
    simp only [choice_step]
    rw [mem_seq_step]
  | null =>
    simp only [choice_step]
    exact mem_iff_or_of_not (by simp)
  | bool b =>
    simp only [choice_step]
    exact mem_iff_or_of_not (by simp)
  | int n =>
    simp only [choice_step]
    exact mem_iff_or_of_not (by simp)
  | str s =>
    simp only [choice_step]
    exact mem_iff_or_of_not (by simp)
  | seq items =>
    simp only [choice_step]
    exact mem_iff_or_of_not (by simp)
termination_by (sizeOf c, 1)
decreasing_by
  all_goals simp_wf
  all_goals exact sizeOf_get_map_lex _ _ _ _

/-- Membership through a branch's `sequence` value. -/
theorem mem_seq_step (acc : List Yaml) (sq v : Yaml) :
    v ∈ seq_step acc sq ↔ v ∈ acc ∨ SStep sq v := by
  rw [sstep_iff]
  cases sq with
  | seq items =>
    simp only [seq_step]
    rw [mem_seq_walk]
  | null =>
    simp only [seq_step]
    exact mem_iff_or_of_not (by simp)
  | bool b =>
    simp only [seq_step]
    exact mem_iff_or_of_not (by simp)
  | int n =>
    simp only [seq_step]
    exact mem_iff_or_of_not (by simp)
  | str s =>
    simp only [seq_step]
    exact mem_iff_or_of_not (by simp)
  | map es =>
    simp only [seq_step]
    exact mem_iff_or_of_not (by simp)
termination_by (sizeOf sq, 1)
decreasing_by
  all_goals simp_wf
  · exact Prod.Lex.left _ _ (by omega)

end

/-- `insertCall` preserves duplicate-freeness (it is a set insert). -/
theorem nodup_insertCall {acc : List Yaml} (h : acc.Nodup) (v : Yaml) :
    (insertCall acc v).Nodup := by
  unfold insertCall
  by_cases hc : acc.contains v
  · rwa [if_pos hc]
  · rw [if_neg hc, ← List.concat_eq_append]
    refine List.Nodup.concat ?_ h
    intro hv
    exact hc (List.contains_iff_exists_mem_beq.2 ⟨v, hv, beq_self_eq_true v⟩)

mutual

/-- `extract_from_action` preserves duplicate-freeness. -/
theorem nodup_extract_from_action (acc : List Yaml) (action : Yaml)
    (h : acc.Nodup) : (extract_from_action acc action).Nodup := by
  cases action with
  | map es =>
    rw [extract_from_action]
    apply nodup_choose_walk
    apply nodup_nested_walk
    apply nodup_nested_walk
    apply nodup_nested_walk
    apply nodup_nested_walk
    by_cases hc : truthy (pyOr ((Yaml.map es).get "action")
        ((Yaml.map es).get "service")) = true
    · rw [if_pos hc]
      exact nodup_insertCall h _
    · rwa [if_neg hc]
  | null => simpa only [extract_from_action]
  | bool b => simpa only [extract_from_action]
  | int n => simpa only [extract_from_action]
  | str s => simpa only [extract_from_action]
  | seq items => simpa only [extract_from_action]
termination_by (sizeOf action, 0)
decreasing_by
  all_goals simp_wf
  all_goals exact sizeOf_get_map_lex _ _ _ _

/-- `nested_walk` preserves duplicate-freeness. -/
theorem nodup_nested_walk (acc : List Yaml) (nested : Yaml)
    (h : acc.Nodup) : (nested_walk acc nested).Nodup := by
  cases nested with
  | seq items =>
    simp only [nested_walk]
    by_cases hc : truthy (Yaml.seq items) = true
    · rw [if_pos hc]
      exact nodup_seq_walk acc items h
    · rwa [if_neg hc]
  | map es =>
    simp only [nested_walk]
    by_cases hc : truthy (Yaml.map es) = true
    · rw [if_pos hc]
      exact nodup_extract_from_action acc (Yaml.map es) h
    · rwa [if_neg hc]
  | null => simpa only [nested_walk, truthy, if_neg]
  | bool b =>
    simp only [nested_walk]
    split <;> assumption
  | int n =>
    simp only [nested_walk]
    split <;> assumption
  | str s =>
    simp only [nested_walk]
    split <;> assumption
termination_by (sizeOf nested, 1)
decreasing_by
  all_goals simp_wf
  · exact Prod.Lex.left _ _ (by omega)
  · exact Prod.Lex.right _ (by omega)

/-- `seq_walk` preserves duplicate-freeness. -/
theorem nodup_seq_walk (acc : List Yaml) (items : List Yaml)
    (h : acc.Nodup) : (seq_walk acc items).Nodup := by
  cases items with
  | nil => simpa only [seq_walk]
  | cons x xs =>
    simp only [seq_walk]
    exact nodup_seq_walk _ xs (nodup_extract_from_action acc x h)
termination_by (sizeOf items, 0)
decreasing_by
  all_goals simp_wf
  · exact Prod.Lex.left _ _ (by omega)
  · exact Prod.Lex.left _ _ (by omega)

/-- `choose_walk` preserves duplicate-freeness. -/
theorem nodup_choose_walk (acc : List Yaml) (choose : Yaml)
    (h : acc.Nodup) : (choose_walk acc choose).Nodup := by
  cases choose with
  | seq choices =>
    simp only [choose_walk]
    exact nodup_choices_walk acc choices h
  | null => simpa only [choose_walk]
  | bool b => simpa only [choose_walk]
  | int n => simpa only [choose_walk]
  | str s => simpa only [choose_walk]
  | map es => simpa only [choose_walk]
termination_by (sizeOf choose, 1)
decreasing_by
  all_goals simp_wf
  · exact Prod.Lex.left _ _ (by omega)

/-- `choices_walk` preserves duplicate-freeness. -/
theorem nodup_choices_walk (acc : List Yaml) (choices : List Yaml)
    (h : acc.Nodup) : (choices_walk acc choices).Nodup := by
  cases choices with
  | nil => simpa only [choices_walk]
  | cons c cs =>
    simp only [choices_walk]
    exact nodup_choices_walk _ cs (nodup_choice_step acc c h)
termination_by (sizeOf choices, 0)
decreasing_by
  all_goals simp_wf
  · exact Prod.Lex.left _ _ (by omega)
  · exact Prod.Lex.left _ _ (by omega)

/-- `choice_step` preserves duplicate-freeness. -/
theorem nodup_choice_step (acc : List Yaml) (c : Yaml)
    (h : acc.Nodup) : (choice_step acc c).Nodup := by
  cases c with
  | map es =>
    simp only [choice_step]
    exact nodup_seq_step acc _ h
  | null => simpa only [choice_step]
  | bool b => simpa only [choice_step]
  | int n => simpa only [choice_step]
  | str s => simpa only [choice_step]
  | seq items => simpa only [choice_step]
termination_by (sizeOf c, 1)
decreasing_by
  all_goals simp_wf
  all_goals exact sizeOf_get_map_lex _ _ _ _

/-- `seq_step` preserves duplicate-freeness. -/
theorem nodup_seq_step (acc : List Yaml) (sq : Yaml)
    (h : acc.Nodup) : (seq_step acc sq).Nodup := by
  cases sq with
  | seq items =>
    simp only [seq_step]
    exact nodup_seq_walk acc items h
  | null => simpa only [seq_step]
  | bool b => simpa only [seq_step]
  | int n => simpa only [seq_step]
  | str s => simpa only [seq_step]
  | map es => simpa only [seq_step]
termination_by (sizeOf sq, 1)
decreasing_by
  all_goals simp_wf
  · exact Prod.Lex.left _ _ (by omega)

end

/-- Pointwise description of one trigger-loop step via the candidate. -/
theorem triggerStep_eq_candidate (acc : List Yaml) (t : Yaml) :
    triggerStep acc t
      = match triggerCandidate t with
        | some tt => insertCall acc tt
        | none => acc := by
  cases t with
  | map es =>
    simp only [triggerStep, triggerCandidate, insertCall]
    by_cases h : truthy (pyOr ((Yaml.map es).get "trigger")
        ((Yaml.map es).get "platform")) = true
    · simp only [if_pos h, h, Bool.true_and]
      by_cases hc : acc.contains (pyOr ((Yaml.map es).get "trigger")
          ((Yaml.map es).get "platform")) = true
      · simp [hc]
      · simp [hc]
    · simp [h]
  | null => rfl
  | bool b => rfl
  | int n => rfl
  | str s => rfl
  | seq items => rfl

/-- The trigger loop equals the insert loop over the candidate list. -/
theorem foldl_triggerStep_eq :
    ∀ (l acc : List Yaml),
      l.foldl triggerStep acc
        = (l.filterMap triggerCandidate).foldl insertCall acc := by
  intro l
  induction l with
  | nil => intro acc; rfl
  | cons t ts ih =>
    intro acc
    simp only [List.foldl_cons, List.filterMap_cons, triggerStep_eq_candidate]
    cases hc : triggerCandidate t with
    | none => exact ih acc
    | some tt => simp only [List.foldl_cons]; exact ih (insertCall acc tt)

/-- `contains` over an appended singleton. -/
theorem contains_append_singleton (acc : List Yaml) (x v : Yaml) :
    ((acc ++ [x]).contains v) = (acc.contains v || v == x) := by
  induction acc with
  | nil =>
    rw [List.nil_append, List.contains_cons]
    rw [show (([] : List Yaml).contains v) = false from rfl]
    simp
  | cons a as ih =>
    simp only [List.cons_append, List.contains_cons, ih, Bool.or_assoc]

/-- The insert loop is `append` plus stable first-seen de-duplication of
the not-yet-present values. -/
theorem foldl_insertCall_eq_dedup :
    ∀ (l acc : List Yaml),
      l.foldl insertCall acc
        = acc ++ dedupKeepFirst (l.filter fun v => !(acc.contains v)) := by
  intro l
  induction l with
  | nil => intro acc; simp [dedupKeepFirst]
  | cons x xs ih =>
    intro acc
    simp only [List.foldl_cons, List.filter_cons]
    by_cases hc : acc.contains x = true
    · have hx : insertCall acc x = acc := by
        unfold insertCall; rw [if_pos hc]
      rw [hx, ih acc, hc]
      simp
    · have hx : insertCall acc x = acc ++ [x] := by
        unfold insertCall; rw [if_neg hc]
      rw [hx, ih (acc ++ [x])]
      have hns : (acc.contains x) = false := by
        simpa using hc
      rw [hns]
      simp only [Bool.not_false, if_true, dedupKeepFirst]
      have hfilter : (xs.filter fun v => !((acc ++ [x]).contains v))
          = (xs.filter fun v => !(acc.contains v)).filter
              fun v => !(v == x) := by
        rw [List.filter_filter]
        apply List.filter_congr
        intro v _
        rw [contains_append_singleton]
        cases hv : acc.contains v <;> cases hvx : v == x <;> simp [hv, hvx]
      rw [hfilter]
      simp

/-- C7.  Trigger-type extraction reads `trigger` (current) falling back to
`platform` (legacy) per entry and appends a value only if it is non-empty
and not already present: the result is the stable first-seen
de-duplication of the candidate sequence, and on
`[{trigger: state}, {trigger: time}, {trigger: state}]` it is exactly
`["state", "time"]`. -/
theorem extract_trigger_types_dedups_first_seen :
    (∀ triggers, extract_trigger_types triggers
        = dedupKeepFirst (triggerCandidates triggers))
    ∧ extract_trigger_types (Yaml.seq
        [ .map [("trigger", .str "state")]
        , .map [("trigger", .str "time")]
        , .map [("trigger", .str "state")] ])
      = [.str "state", .str "time"] := by
  constructor
  · intro triggers
    have hmain : ∀ l : List Yaml,
        l.foldl triggerStep [] = dedupKeepFirst (l.filterMap triggerCandidate) := by
      intro l
      rw [foldl_triggerStep_eq, foldl_insertCall_eq_dedup]
      rw [List.nil_append]
      congr 1
      have : ∀ v : Yaml, (!(([] : List Yaml).contains v)) = true := by
        intro v; rfl
      calc (l.filterMap triggerCandidate).filter
              (fun v => !(([] : List Yaml).contains v))
          = (l.filterMap triggerCandidate).filter (fun _ => true) := by
            apply List.filter_congr; intro v _; exact this v
        _ = l.filterMap triggerCandidate := List.filter_true _
    cases triggers with
    | map es => exact hmain [Yaml.map es]
    | seq items => exact hmain items
    | null => simp [extract_trigger_types, triggerCandidates, dedupKeepFirst]
    | bool b => simp [extract_trigger_types, triggerCandidates, dedupKeepFirst]
    | int n => simp [extract_trigger_types, triggerCandidates, dedupKeepFirst]
    | str s => simp [extract_trigger_types, triggerCandidates, dedupKeepFirst]
  · decide

/-! ## C5: record invariants (corrected) -/

/-- Stable insertion preserves length. -/
theorem length_stableInsertBy (gt : α → α → Bool) (x : α) :
    ∀ l : List α, (stableInsertBy gt x l).length = l.length + 1 := by
  intro l
  induction l with
  | nil => rfl
  | cons y ys ih =>
    simp only [stableInsertBy]
    by_cases h : gt x y = true
    · rw [if_pos h]; simp
    · rw [if_neg h]; simp [ih]

/-- The stable sort preserves length. -/
theorem length_stableSortBy (gt : α → α → Bool) (l : List α) :
    (stableSortBy gt l).length = l.length := by
  suffices h : ∀ (l acc : List α),
      (l.foldl (fun acc x => stableInsertBy gt x acc) acc).length
        = acc.length + l.length by
    simpa using h l []
  intro l
  induction l with
  | nil => intro acc; simp
  | cons x xs ih =>
    intro acc
    simp only [List.foldl_cons]
    rw [ih, length_stableInsertBy]
    simp only [List.length_cons]
    omega

/-- An inactive filter stage (absent or empty-string filter) is the
identity. -/
theorem filterStep_inactive (f : Option String)
    (cond : String → AutomationRow × RepositoryRow → Bool)
    (rows : List (AutomationRow × RepositoryRow))
    (h : activeFilter f = false) : filterStep f cond rows = rows := by
  cases f with
  | none => rfl
  | some v =>
    simp only [activeFilter, bne_eq_false_iff_eq] at h
    simp [filterStep, h]

/-- An inactive repository filter stage is the identity. -/
theorem repoFilterStep_inactive (f : Option String)
    (rows : List (AutomationRow × RepositoryRow))
    (h : activeFilter f = false) : repoFilterStep f rows = rows := by
  cases f with
  | none => rfl
  | some v =>
    simp only [activeFilter, bne_eq_false_iff_eq] at h
    simp [repoFilterStep, h]

/-- With no query and no active filter, every joined row matches (the
conjunction is empty). -/
theorem searchMatches_browse (autos : List AutomationRow)
    (repos : List RepositoryRow) (query : String)
    (rf bf tf adf af : Option String)
    (hq : query = "") (h1 : activeFilter rf = false)
    (h2 : activeFilter bf = false) (h3 : activeFilter tf = false)
    (h4 : activeFilter adf = false) (h5 : activeFilter af = false) :
    searchMatches autos repos query rf bf tf adf af
      = joinRows autos repos := by
  subst hq
  simp only [searchMatches]
  rw [if_pos (by rfl)]
  rw [repoFilterStep_inactive _ _ h1, filterStep_inactive _ _ _ h2,
    filterStep_inactive _ _ _ h3, filterStep_inactive _ _ _ h4,
    filterStep_inactive _ _ _ h5]

/-- C8.  The search counts all matches before applying the window, then
returns the slice at offset `(page - 1) * per_page` of length at most
`per_page` together with the full match count; a page beyond the
available range returns the empty slice with the same total, never an
error. -/
theorem search_counts_then_windows (autos : List AutomationRow)
    (repos : List RepositoryRow) (query : String) (page per_page : Nat)
    (rf bf tf adf af : Option String)
    (hp : 1 ≤ page) (hpp1 : 10 ≤ per_page) (hpp2 : per_page ≤ 100) :
    (search_automations autos repos query page per_page rf bf tf adf af).2
        = (searchMatches autos repos query rf bf tf adf af).length
      ∧ (search_automations autos repos query page per_page rf bf tf adf af).1
          = (((searchWindowSource autos repos query rf bf tf adf af).drop
              ((page - 1) * per_page)).take per_page).map formatRow
      ∧ (search_automations autos repos query page per_page rf bf tf
            adf af).1.length ≤ per_page
      ∧ ((searchMatches autos repos query rf bf tf adf af).length
            ≤ (page - 1) * per_page →
          (search_automations autos repos query page per_page rf bf tf
            adf af).1 = []) := by
  unfold search_automations searchWindowSource
  by_cases hb : (query == "" && !activeFilter rf && !activeFilter bf
      && !activeFilter tf && !activeFilter adf && !activeFilter af) = true
  · rw [if_pos hb, if_pos hb]
    have hb' := hb
    simp only [Bool.and_eq_true, Bool.not_eq_true', beq_iff_eq] at hb'
    obtain ⟨⟨⟨⟨⟨hq, h1⟩, h2⟩, h3⟩, h4⟩, h5⟩ := hb'
    have hm := searchMatches_browse autos repos query rf bf tf adf af
      hq h1 h2 h3 h4 h5
    unfold get_recent_automations
    refine ⟨by rw [hm], rfl, ?_, ?_⟩
    · calc ((((stableSortBy recentGT (joinRows autos repos)).drop
            ((page - 1) * per_page)).take per_page).map formatRow).length
          = (((stableSortBy recentGT (joinRows autos repos)).drop
            ((page - 1) * per_page)).take per_page).length :=
            List.length_map _ _
        _ ≤ per_page := List.length_take_le _ _
    · intro hle
      rw [hm] at hle
      have hd : (stableSortBy recentGT (joinRows autos repos)).drop
          ((page - 1) * per_page) = [] := by
        apply List.drop_eq_nil_of_le
        rw [length_stableSortBy]
        exact hle
      simp only [hd, List.take_nil, List.map_nil]
  · rw [if_neg hb, if_neg hb]
    refine ⟨rfl, rfl, ?_, ?_⟩
    · calc ((((searchMatches autos repos query rf bf tf adf af).drop
            ((page - 1) * per_page)).take per_page).map formatRow).length
          = (((searchMatches autos repos query rf bf tf adf af).drop
            ((page - 1) * per_page)).take per_page).length :=
            List.length_map _ _
        _ ≤ per_page := List.length_take_le _ _
    · intro hle
      have hd : (searchMatches autos repos query rf bf tf adf af).drop
          ((page - 1) * per_page) = [] :=
        List.drop_eq_nil_of_le hle
      simp only [hd, List.take_nil, List.map_nil]

/-- Witness for `search_counts_then_windows`: 35 matching automations with
`per_page = 30` give 30 rows on page 1, 5 rows on page 2, and the empty
slice with the same total 35 on page 100. -/
theorem search_counts_then_windows_witness :
    (search_automations exDb [exRepo] "morning" 100 30
        none none none none none).1 = []
      ∧ (search_automations exDb [exRepo] "morning" 100 30
          none none none none none).2 = 35
      ∧ (search_automations exDb [exRepo] "morning" 1 30
          none none none none none).1.length = 30
      ∧ (search_automations exDb [exRepo] "morning" 1 30
          none none none none none).2 = 35
      ∧ (search_automations exDb [exRepo] "morning" 2 30
          none none none none none).1.length = 5
      ∧ (search_automations exDb [exRepo] "morning" 2 30
          none none none none none).2 = 35 := by
  refine ⟨?_, by decide, by decide, by decide, by decide, by decide⟩
  exact (search_counts_then_windows exDb [exRepo] "morning" 100 30
    none none none none none (by decide) (by decide) (by decide)).2.2.2
    (by decide)

/-! ## C2: facet counts exclude the dimension's own filter -/

/-- A conditional filter stage is an ordinary filter by its pointwise
reading. -/
theorem filterStep_eq_filter (f : Option String)
    (cond : String → AutomationRow × RepositoryRow → Bool)
    (rows : List (AutomationRow × RepositoryRow)) :
    filterStep f cond rows = rows.filter (stepPass f cond) := by
  cases f with
  | none =>
    exact (List.filter_true rows).symm
  | some v =>
    have hpt : ∀ x, stepPass (some v) cond x
        = if v == "" then true else cond v x := fun _ => rfl
    simp only [filterStep]
    by_cases h : (v == "") = true
    · rw [if_pos h]
      refine (List.filter_eq_self.2 ?_).symm
      intro x _
      rw [hpt, if_pos h]
    · rw [if_neg h]
      apply List.filter_congr
      intro x _
      rw [hpt, if_neg h]

/-- The repository filter stage is an ordinary filter by its pointwise
reading. -/
theorem repoFilterStep_eq_filter (f : Option String)
    (rows : List (AutomationRow × RepositoryRow)) :
    repoFilterStep f rows = rows.filter (repoPass f) := by
  cases f with
  | none =>
    exact (List.filter_true rows).symm
  | some v =>
    have hpt : ∀ x, repoPass (some v) x
        = if v == "" then true
          else
            match splitFirstSlash v.toList with
            | some (o, n) => x.2.owner.toList == o && x.2.name.toList == n
            | none => true := fun _ => rfl
    simp only [repoFilterStep]
    by_cases h : (v == "") = true
    · rw [if_pos h]
      refine (List.filter_eq_self.2 ?_).symm
      intro x _
      rw [hpt, if_pos h]
    · rw [if_neg h]
      cases hs : splitFirstSlash v.toList with
      | some p =>
        obtain ⟨o, n⟩ := p
        apply List.filter_congr
        intro x _
        rw [hpt, if_neg h, hs]
      | none =>
        refine (List.filter_eq_self.2 ?_).symm
        intro x _
        rw [hpt, if_neg h, hs]

/-- The four-stage chain every facet dimension applies equals one filter
by the conjunction with the dimension's own slot inactive. -/
theorem facet_chain_eq_filter (base : List (AutomationRow × RepositoryRow))
    (p1 p2 p3 p4 : (AutomationRow × RepositoryRow) → Bool) (q1 q2 q3 q4
      : List (AutomationRow × RepositoryRow)
        → List (AutomationRow × RepositoryRow))
    (h1 : ∀ rows, q1 rows = rows.filter p1)
    (h2 : ∀ rows, q2 rows = rows.filter p2)
    (h3 : ∀ rows, q3 rows = rows.filter p3)
    (h4 : ∀ rows, q4 rows = rows.filter p4) :
    q4 (q3 (q2 (q1 base)))
      = base.filter fun x => p1 x && p2 x && p3 x && p4 x := by
  rw [h1, h2, h3, h4, List.filter_filter, List.filter_filter,
    List.filter_filter]
  apply List.filter_congr
  intro x _
  cases hp1 : p1 x <;> cases hp2 : p2 x <;> cases hp3 : p3 x
    <;> cases hp4 : p4 x <;> simp [hp1, hp2, hp3, hp4]

/-- Full characterization of `get_facets`: each dimension aggregates the
text-filtered base restricted by the conjunction of the other active
filters (its own slot inactive). -/
theorem get_facets_eq (autos : List AutomationRow)
    (repos : List RepositoryRow) (query : String)
    (rf bf adf af : Option String) : ∀ (tf' : Option String),
      get_facets autos repos query rf bf tf' adf af
        = { repositories := topRepoCounts (repoAgg
              ((textBase autos repos query).filter
                (exceptPred none bf tf' adf af)))
          , blueprints := topCounts (blueprintCounts
              (((((textBase autos repos query).filter
                  (exceptPred rf none tf' adf af)).filter
                    fun x => x.1.blueprint_path.isSome)).map
                fun x => x.1.blueprint_path))
          , triggers := topCounts (triggerCounts
              (((((textBase autos repos query).filter
                  (exceptPred rf bf none adf af)).filter
                    fun x => x.1.trigger_types.isSome)).map
                fun x => x.1.trigger_types))
          , action_domains := topCounts (domainCounts
              (((((textBase autos repos query).filter
                  (exceptPred rf bf tf' none af)).filter
                    fun x => x.1.action_calls.isSome)).map
                fun x => x.1.action_calls))
          , actions := topCounts (actionCounts
              (((((textBase autos repos query).filter
                  (exceptPred rf bf tf' adf none)).filter
                    fun x => x.1.action_calls.isSome)).map
                fun x => x.1.action_calls)) } := by
    intro tf'
    have hchain1 : filterStep af (fun v x => actionCond v x.1)
        (filterStep adf (fun v x => actionDomainCond v x.1)
          (filterStep tf' (fun v x => triggerCond v x.1)
            (filterStep bf (fun v x => blueprintCond v x.1)
              (textBase autos repos query))))
        = (textBase autos repos query).filter
            (exceptPred none bf tf' adf af) := by
      rw [facet_chain_eq_filter _ _ _ _ _ _ _ _ _
        (filterStep_eq_filter bf _) (filterStep_eq_filter tf' _)
        (filterStep_eq_filter adf _) (filterStep_eq_filter af _)]
      apply List.filter_congr
      intro x _
      simp [exceptPred, repoPass]
    have hchain2 : filterStep af (fun v x => actionCond v x.1)
        (filterStep adf (fun v x => actionDomainCond v x.1)
          (filterStep tf' (fun v x => triggerCond v x.1)
            (repoFilterStep rf (textBase autos repos query))))
        = (textBase autos repos query).filter
            (exceptPred rf none tf' adf af) := by
      rw [facet_chain_eq_filter _ _ _ _ _ _ _ _ _
        (repoFilterStep_eq_filter rf) (filterStep_eq_filter tf' _)
        (filterStep_eq_filter adf _) (filterStep_eq_filter af _)]
      apply List.filter_congr
      intro x _
      simp only [exceptPred]
      rw [show stepPass (none : Option String)
        (fun v y => blueprintCond v y.1) x = true from rfl]
      cases h1 : repoPass rf x <;>
        cases h2 : stepPass tf' (fun v y => triggerCond v y.1) x <;>
        cases h3 : stepPass adf (fun v y => actionDomainCond v y.1) x <;>
        cases h4 : stepPass af (fun v y => actionCond v y.1) x <;>
        simp [h1, h2, h3, h4]
    have hchain3 : filterStep af (fun v x => actionCond v x.1)
        (filterStep adf (fun v x => actionDomainCond v x.1)
          (filterStep bf (fun v x => blueprintCond v x.1)
            (repoFilterStep rf (textBase autos repos query))))
        = (textBase autos repos query).filter
            (exceptPred rf bf none adf af) := by
      rw [facet_chain_eq_filter _ _ _ _ _ _ _ _ _
        (repoFilterStep_eq_filter rf) (filterStep_eq_filter bf _)
        (filterStep_eq_filter adf _) (filterStep_eq_filter af _)]
      apply List.filter_congr
      intro x _
      simp only [exceptPred]
      rw [show stepPass (none : Option String)
        (fun v y => triggerCond v y.1) x = true from rfl]
      cases h1 : repoPass rf x <;>
        cases h2 : stepPass bf (fun v y => blueprintCond v y.1) x <;>
        cases h3 : stepPass adf (fun v y => actionDomainCond v y.1) x <;>
        cases h4 : stepPass af (fun v y => actionCond v y.1) x <;>
        simp [h1, h2, h3, h4]
    have hchain4 : filterStep af (fun v x => actionCond v x.1)
        (filterStep tf' (fun v x => triggerCond v x.1)
          (filterStep bf (fun v x => blueprintCond v x.1)
            (repoFilterStep rf (textBase autos repos query))))
        = (textBase autos repos query).filter
            (exceptPred rf bf tf' none af) := by
      rw [facet_chain_eq_filter _ _ _ _ _ _ _ _ _
        (repoFilterStep_eq_filter rf) (filterStep_eq_filter bf _)
        (filterStep_eq_filter tf' _) (filterStep_eq_filter af _)]
      apply List.filter_congr
      intro x _
      simp only [exceptPred]
      rw [show stepPass (none : Option String)
        (fun v y => actionDomainCond v y.1) x = true from rfl]
      cases h1 : repoPass rf x <;>
        cases h2 : stepPass bf (fun v y => blueprintCond v y.1) x <;>
        cases h3 : stepPass tf' (fun v y => triggerCond v y.1) x <;>
        cases h4 : stepPass af (fun v y => actionCond v y.1) x <;>
        simp [h1, h2, h3, h4]
    have hchain5 : filterStep adf (fun v x => actionDomainCond v x.1)
        (filterStep tf' (fun v x => triggerCond v x.1)
          (filterStep bf (fun v x => blueprintCond v x.1)
            (repoFilterStep rf (textBase autos repos query))))
        = (textBase autos repos query).filter
            (exceptPred rf bf tf' adf none) := by
      rw [facet_chain_eq_filter _ _ _ _ _ _ _ _ _
        (repoFilterStep_eq_filter rf) (filterStep_eq_filter bf _)
        (filterStep_eq_filter tf' _) (filterStep_eq_filter adf _)]
      apply List.filter_congr
      intro x _
      simp only [exceptPred]
      rw [show stepPass (none : Option String)
        (fun v y => actionCond v y.1) x = true from rfl]
      cases h1 : repoPass rf x <;>
        cases h2 : stepPass bf (fun v y => blueprintCond v y.1) x <;>
        cases h3 : stepPass tf' (fun v y => triggerCond v y.1) x <;>
        cases h4 : stepPass adf (fun v y => actionDomainCond v y.1) x <;>
        simp [h1, h2, h3, h4]
    simp only [get_facets]
    rw [hchain1, hchain2, hchain3, hchain4, hchain5]

/-- C2.  Each facet dimension's counts are computed over the rows
matching the conjunction of the text predicate and all active filters
except that dimension's own filter; in particular the trigger facet is
unchanged by the trigger filter while the other four dimensions still
apply it. -/
theorem get_facets_self_excluded_others_applied
    (autos : List AutomationRow) (repos : List RepositoryRow)
    (query : String) (rf bf tf adf af : Option String) :
    (get_facets autos repos query rf bf tf adf af
      = { repositories := topRepoCounts (repoAgg
            ((textBase autos repos query).filter
              (exceptPred none bf tf adf af)))
        , blueprints := topCounts (blueprintCounts
            (((((textBase autos repos query).filter
                (exceptPred rf none tf adf af)).filter
                  fun x => x.1.blueprint_path.isSome)).map
              fun x => x.1.blueprint_path))
        , triggers := topCounts (triggerCounts
            (((((textBase autos repos query).filter
                (exceptPred rf bf none adf af)).filter
                  fun x => x.1.trigger_types.isSome)).map
              fun x => x.1.trigger_types))
        , action_domains := topCounts (domainCounts
            (((((textBase autos repos query).filter
                (exceptPred rf bf tf none af)).filter
                  fun x => x.1.action_calls.isSome)).map
              fun x => x.1.action_calls))
        , actions := topCounts (actionCounts
            (((((textBase autos repos query).filter
                (exceptPred rf bf tf adf none)).filter
                  fun x => x.1.action_calls.isSome)).map
              fun x => x.1.action_calls)) })
    ∧ (get_facets autos repos query rf bf tf adf af).triggers
        = (get_facets autos repos query rf bf none adf af).triggers := by
  refine ⟨get_facets_eq autos repos query rf bf adf af tf, ?_⟩
  rw [get_facets_eq autos repos query rf bf adf af tf,
    get_facets_eq autos repos query rf bf adf af none]

/-! ## C10: the blueprint facet has no bucket for blueprint-less rows -/

/-- Filtering the automation table before the join equals filtering the
join on the left component. -/
theorem joinRows_filter_left (P : AutomationRow → Bool)
    (autos : List AutomationRow) (repos : List RepositoryRow) :
    joinRows (autos.filter P) repos
      = (joinRows autos repos).filter fun x => P x.1 := by
  induction autos with
  | nil => rfl
  | cons a as ih =>
    simp only [joinRows, List.filter_cons] at *
    by_cases h : P a = true
    · rw [if_pos h]
      simp only [List.flatMap_cons, List.filter_append, ih]
      congr 1
      rw [List.filter_map]
      have : ((fun x : AutomationRow × RepositoryRow => P x.1)
          ∘ fun r => (a, r)) = fun _ => true := by
        funext r
        simp [h]
      rw [this, List.filter_true]
    · rw [if_neg h]
      simp only [List.flatMap_cons, List.filter_append, ih]
      have hnil : List.filter (fun x : AutomationRow × RepositoryRow => P x.1)
          ((repos.filter fun r => r.id == a.repository_id).map
            fun r => (a, r)) = [] := by
        rw [List.filter_map]
        have : ((fun x : AutomationRow × RepositoryRow => P x.1)
            ∘ fun r => (a, r)) = fun _ => false := by
          funext r
          simp [h]
        rw [this]
        simp
      rw [hnil, List.nil_append]

/-- Filters of the same list commute. -/
theorem filter_comm_list (p q : α → Bool) (l : List α) :
    (l.filter p).filter q = (l.filter q).filter p := by
  rw [List.filter_filter, List.filter_filter]
  apply List.filter_congr
  intro x _
  cases hp : p x <;> cases hq : q x <;> simp [hp, hq]

/-- The text base of a pre-filtered automation table. -/
theorem textBase_filter_left (P : AutomationRow → Bool)
    (autos : List AutomationRow) (repos : List RepositoryRow)
    (query : String) :
    textBase (autos.filter P) repos query
      = (textBase autos repos query).filter fun x => P x.1 := by
  simp only [textBase]
  by_cases h : (query == "") = true
  · rw [if_pos h, if_pos h, joinRows_filter_left]
  · rw [if_neg h, if_neg h, joinRows_filter_left, filter_comm_list]

/-- C10.  The blueprint facet aggregates only automations with a non-null
`blueprint_path` — removing every blueprint-less automation from the store
leaves it unchanged (there is no "none" bucket) — while on a store holding
a single blueprint-less automation that same automation is still counted
in the repository, trigger, action-domain and action facets. -/
theorem blueprint_facet_has_no_none_bucket :
    (∀ (autos : List AutomationRow) (repos : List RepositoryRow)
        (query : String) (rf bf tf adf af : Option String),
      (get_facets autos repos query rf bf tf adf af).blueprints
        = (get_facets (autos.filter fun a => a.blueprint_path.isSome)
            repos query rf bf tf adf af).blueprints)
    ∧ get_facets [exNoBpRow] [exRepo] "" none none none none none
        = { repositories := [("owner", "repo", 5, 1)]
          , blueprints := []
          , triggers := [("state", 1)]
          , action_domains := [("light", 1)]
          , actions := [("light.turn_on", 1)] } := by
  constructor
  · intro autos repos query rf bf tf adf af
    rw [get_facets_eq autos repos query rf bf adf af tf,
      get_facets_eq (autos.filter fun a => a.blueprint_path.isSome)
        repos query rf bf adf af tf]
    simp only
    congr 1
    rw [textBase_filter_left, filter_comm_list]
    congr 1
    rw [List.filter_filter, List.filter_filter]
    congr 1
    apply List.filter_congr
    intro x _
    cases h : x.1.blueprint_path.isSome <;>
      cases he : exceptPred rf none tf adf af x <;> simp [h, he]
  · decide

/-! ## C1: exact element match inside a comma-joined column -/

theorem likeM_nil_eval (useEsc : Bool) (s : List Char) :
    likeM useEsc [] s = s.isEmpty := by
  rw [likeM.eq_def]

theorem likeM_nil_iff (s : List Char) : likeM true [] s = true ↔ s = [] := by
  rw [likeM_nil_eval, List.isEmpty_iff]

theorem likeM_cons (useEsc : Bool) (p : Char) (ps s : List Char) :
    likeM useEsc (p :: ps) s
      = (if p = '%' then
          s.tails.any fun t => likeM useEsc ps t
        else if p = '_' then
          match s with
          | [] => false
          | _ :: s' => likeM useEsc ps s'
        else if useEsc && p = '\\' then
          match ps with
          | [] => false
          | q :: ps' =>
            match s with
            | [] => false
            | c :: s' => q = c && likeM useEsc ps' s'
        else
          match s with
          | [] => false
          | c :: s' => p = c && likeM useEsc ps s') := by
  rw [likeM.eq_def]

theorem likeM_percent_iff (ps s : List Char) :
    likeM true ('%' :: ps) s = true
      ↔ ∃ a b, s = a ++ b ∧ likeM true ps b = true := by
  rw [likeM_cons, if_pos rfl, List.any_eq_true]
  constructor
  · rintro ⟨t, ht, hl⟩
    obtain ⟨a, ha⟩ := (List.mem_tails t s).1 ht
    exact ⟨a, t, ha.symm, hl⟩
  · rintro ⟨a, b, rfl, hl⟩
    exact ⟨b, (List.mem_tails b (a ++ b)).2 ⟨a, rfl⟩, hl⟩

theorem likeM_escaped_iff (q : Char) (ps s : List Char) :
    likeM true ('\\' :: q :: ps) s = true
      ↔ ∃ s', s = q :: s' ∧ likeM true ps s' = true := by
  rw [likeM_cons]
  rw [if_neg (by decide), if_neg (by decide), if_pos (by decide)]
  cases s with
  | nil => simp
  | cons c s' =>
    simp only [Bool.and_eq_true, decide_eq_true_eq]
    constructor
    · rintro ⟨rfl, h⟩
      exact ⟨s', rfl, h⟩
    · rintro ⟨s'', heq, h⟩
      cases heq
      exact ⟨rfl, h⟩

theorem likeM_lit_iff (c : Char) (h1 : c ≠ '%') (h2 : c ≠ '_')
    (h3 : c ≠ '\\') (ps s : List Char) :
    likeM true (c :: ps) s = true
      ↔ ∃ s', s = c :: s' ∧ likeM true ps s' = true := by
  rw [likeM_cons]
  rw [if_neg h1, if_neg h2, if_neg (by simp [h3])]
  cases s with
  | nil => simp
  | cons d s' =>
    simp only [Bool.and_eq_true, decide_eq_true_eq]
    constructor
    · rintro ⟨rfl, h⟩
      exact ⟨s', rfl, h⟩
    · rintro ⟨s'', heq, h⟩
      cases heq
      exact ⟨rfl, h⟩

theorem escape_like_cons (c : Char) (v : List Char) :
    escape_like (c :: v) = escChar c ++ escape_like v := by
  by_cases h1 : c = '\\'
  · subst h1
    simp [escape_like, replaceChar, escChar]
  · by_cases h2 : c = '%'
    · subst h2
      simp [escape_like, replaceChar, escChar]
    · by_cases h3 : c = '_'
      · subst h3
        simp [escape_like, replaceChar, escChar]
      · simp [escape_like, replaceChar, escChar, h1, h2, h3]

theorem likeM_escape_self :
    ∀ (v p s : List Char),
      likeM true (escape_like v ++ p) s = true
        ↔ ∃ s', s = v ++ s' ∧ likeM true p s' = true := by
  intro v
  induction v with
  | nil =>
    intro p s
    rw [show escape_like [] = [] from rfl, List.nil_append]
    constructor
    · intro h; exact ⟨s, rfl, h⟩
    · rintro ⟨s', rfl, h⟩; exact h
  | cons c vs ih =>
    intro p s
    rw [escape_like_cons, List.append_assoc]
    by_cases h1 : c = '\\' ∨ c = '%' ∨ c = '_'
    · rw [show escChar c = ['\\', c] from by simp [escChar, h1],
        show ((['\\', c] : List Char) ++ (escape_like vs ++ p))
          = '\\' :: c :: (escape_like vs ++ p) from rfl,
        likeM_escaped_iff]
      constructor
      · rintro ⟨s', rfl, h⟩
        obtain ⟨s'', rfl, h2⟩ := (ih p s').1 h
        exact ⟨s'', rfl, h2⟩
      · rintro ⟨s', heq, h⟩
        refine ⟨vs ++ s', by rw [heq]; rfl, ?_⟩
        exact (ih p (vs ++ s')).2 ⟨s', rfl, h⟩
    · push_neg at h1
      rw [show escChar c = [c] from by simp [escChar, h1.1, h1.2.1, h1.2.2],
        show (([c] : List Char) ++ (escape_like vs ++ p))
          = c :: (escape_like vs ++ p) from rfl,
        likeM_lit_iff c h1.2.1 h1.2.2 h1.1]
      constructor
      · rintro ⟨s', rfl, h⟩
        obtain ⟨s'', rfl, h2⟩ := (ih p s').1 h
        exact ⟨s'', rfl, h2⟩
      · rintro ⟨s', heq, h⟩
        refine ⟨vs ++ s', by rw [heq]; rfl, ?_⟩
        exact (ih p (vs ++ s')).2 ⟨s', rfl, h⟩

theorem likeM_percent_all (s : List Char) : likeM true ['%'] s = true := by
  rw [likeM_cons, if_pos rfl, List.any_eq_true]
  refine ⟨[], (List.mem_tails [] s).2 List.nil_suffix, ?_⟩
  rw [likeM_nil_eval]
  rfl

theorem likeM_first_pattern (v s : List Char) :
    likeM true (escape_like v ++ [',', '%']) s = true
      ↔ ∃ r, s = v ++ ',' :: r := by
  rw [likeM_escape_self]
  constructor
  · rintro ⟨s', rfl, h⟩
    rw [likeM_lit_iff ',' (by decide) (by decide) (by decide)] at h
    obtain ⟨s'', rfl, _⟩ := h
    exact ⟨s'', rfl⟩
  · rintro ⟨r, rfl⟩
    refine ⟨',' :: r, rfl, ?_⟩
    rw [likeM_lit_iff ',' (by decide) (by decide) (by decide)]
    exact ⟨r, rfl, likeM_percent_all r⟩

theorem likeM_mid_pattern (v s : List Char) :
    likeM true ('%' :: ',' :: (escape_like v ++ [',', '%'])) s = true
      ↔ ∃ a r, s = a ++ ',' :: (v ++ ',' :: r) := by
  rw [likeM_percent_iff]
  constructor
  · rintro ⟨a, b, rfl, h⟩
    rw [likeM_lit_iff ',' (by decide) (by decide) (by decide)] at h
    obtain ⟨b', rfl, h2⟩ := h
    obtain ⟨r, rfl⟩ := (likeM_first_pattern v b').1 h2
    exact ⟨a, r, rfl⟩
  · rintro ⟨a, r, rfl⟩
    refine ⟨a, ',' :: (v ++ ',' :: r), rfl, ?_⟩
    rw [likeM_lit_iff ',' (by decide) (by decide) (by decide)]
    exact ⟨v ++ ',' :: r, rfl, (likeM_first_pattern v _).2 ⟨r, rfl⟩⟩

theorem likeM_last_pattern (v s : List Char) :
    likeM true ('%' :: ',' :: escape_like v) s = true
      ↔ ∃ a, s = a ++ ',' :: v := by
  rw [likeM_percent_iff]
  constructor
  · rintro ⟨a, b, rfl, h⟩
    rw [likeM_lit_iff ',' (by decide) (by decide) (by decide)] at h
    obtain ⟨b', rfl, h2⟩ := h
    rw [← List.append_nil (escape_like v)] at h2
    obtain ⟨s', rfl, h3⟩ := (likeM_escape_self v [] b').1 h2
    rw [likeM_nil_iff] at h3
    subst h3
    exact ⟨a, by simp⟩
  · rintro ⟨a, rfl⟩
    refine ⟨a, ',' :: v, rfl, ?_⟩
    rw [likeM_lit_iff ',' (by decide) (by decide) (by decide)]
    refine ⟨v, rfl, ?_⟩
    rw [← List.append_nil (escape_like v)]
    exact (likeM_escape_self v [] v).2 ⟨[], by simp, by rw [likeM_nil_iff]⟩

theorem exact_match_shapes (col v : List Char) :
    exact_match_in_comma_list col v = true
      ↔ col = v ∨ (∃ r, col = v ++ ',' :: r)
        ∨ (∃ a r, col = a ++ ',' :: (v ++ ',' :: r))
        ∨ (∃ a, col = a ++ ',' :: v) := by
  unfold exact_match_in_comma_list
  simp only [Bool.or_eq_true, beq_iff_eq]
  rw [likeM_first_pattern, likeM_mid_pattern, likeM_last_pattern,
    or_assoc, or_assoc]

theorem splitComma_ne_nil : ∀ l : List Char, splitComma l ≠ [] := by
  intro l
  cases l with
  | nil => simp [splitComma]
  | cons c rest =>
    simp only [splitComma]
    by_cases h : c = ','
    · rw [if_pos h]; simp
    · rw [if_neg h]
      cases hs : splitComma rest with
      | nil => simp
      | cons t ts => simp

theorem splitComma_append (a b : List Char) :
    splitComma (a ++ ',' :: b) = splitComma a ++ splitComma b := by
  induction a with
  | nil => simp [splitComma]
  | cons c as ih =>
    by_cases h : c = ','
    · subst h
      simp [splitComma, ih]
    · simp only [List.cons_append, splitComma, if_neg h]
      simp only [List.append_eq]
      rw [ih]
      cases hs : splitComma as with
      | nil => exact absurd hs (splitComma_ne_nil as)
      | cons t ts => simp

theorem splitComma_no_comma (v : List Char) (hv : ',' ∉ v) :
    splitComma v = [v] := by
  induction v with
  | nil => rfl
  | cons c vs ih =>
    have hc : c ≠ ',' := fun h => hv (h ▸ List.mem_cons_self c vs)
    have hvs : ',' ∉ vs := fun h => hv (List.mem_cons_of_mem c h)
    simp only [splitComma, if_neg hc, ih hvs]

theorem splitComma_decomp :
    ∀ (col t : List Char) (ts : List (List Char)),
      splitComma col = t :: ts →
      (ts = [] ∧ col = t)
        ∨ (∃ r, col = t ++ ',' :: r ∧ splitComma r = ts) := by
  intro col
  induction col with
  | nil =>
    intro t ts h
    rw [show splitComma [] = [[]] from rfl] at h
    injection h with h1 h2
    exact Or.inl ⟨h2.symm, h1⟩
  | cons c rest ih =>
    intro t ts h
    by_cases hc : c = ','
    · subst hc
      rw [show splitComma (',' :: rest) = [] :: splitComma rest from by
        simp [splitComma]] at h
      injection h with h1 h2
      subst h1
      subst h2
      exact Or.inr ⟨rest, rfl, rfl⟩
    · simp only [splitComma, if_neg hc] at h
      cases hs : splitComma rest with
      | nil => exact absurd hs (splitComma_ne_nil rest)
      | cons t' ts' =>
        rw [hs] at h
        injection h with h1 h2
        subst h1
        subst h2
        rcases ih t' ts' hs with ⟨rfl, rfl⟩ | ⟨r, hr, hsr⟩
        · exact Or.inl ⟨rfl, rfl⟩
        · exact Or.inr ⟨r, by rw [hr]; rfl, hsr⟩

theorem mem_splitComma_shapes :
    ∀ (n : Nat) (r v : List Char), r.length ≤ n → v ∈ splitComma r →
      r = v ∨ (∃ r2, r = v ++ ',' :: r2)
        ∨ (∃ a r2, r = a ++ ',' :: (v ++ ',' :: r2))
        ∨ (∃ a, r = a ++ ',' :: v) := by
  intro n
  induction n with
  | zero =>
    intro r v hr hm
    have h0 : r = [] := List.length_eq_zero.1 (Nat.le_zero.1 hr)
    subst h0
    simp only [splitComma, List.mem_singleton] at hm
    exact Or.inl hm.symm
  | succ n ih =>
    intro r v hr hm
    cases hsp : splitComma r with
    | nil => exact absurd hsp (splitComma_ne_nil r)
    | cons t ts =>
      rw [hsp] at hm
      rcases List.mem_cons.1 hm with rfl | hts
      · rcases splitComma_decomp r v ts hsp with ⟨_, rfl⟩ | ⟨r2, rfl, _⟩
        · exact Or.inl rfl
        · exact Or.inr (Or.inl ⟨r2, rfl⟩)
      · rcases splitComma_decomp r t ts hsp with ⟨hts0, rfl⟩ | ⟨r2, rfl, hsr⟩
        · rw [hts0] at hts; cases hts
        · have hr2 : r2.length ≤ n := by
            have hlen : (t ++ ',' :: r2).length = t.length + 1 + r2.length := by
              simp [List.length_append]
              omega
            rw [hlen] at hr
            omega
          rw [← hsr] at hts
          rcases ih r2 v hr2 hts with rfl | ⟨r3, rfl⟩ | ⟨a, r3, rfl⟩ | ⟨a, rfl⟩
          · exact Or.inr (Or.inr (Or.inr ⟨t, rfl⟩))
          · exact Or.inr (Or.inr (Or.inl ⟨t, r3, rfl⟩))
          · refine Or.inr (Or.inr (Or.inl ⟨t ++ ',' :: a, r3, ?_⟩))
            simp
          · refine Or.inr (Or.inr (Or.inr ⟨t ++ ',' :: a, ?_⟩))
            simp

theorem shapes_mem_splitComma (col v : List Char) (hv : ',' ∉ v)
    (h : col = v ∨ (∃ r, col = v ++ ',' :: r)
      ∨ (∃ a r, col = a ++ ',' :: (v ++ ',' :: r))
      ∨ (∃ a, col = a ++ ',' :: v)) : v ∈ splitComma col := by
  rcases h with h0 | ⟨r, rfl⟩ | ⟨a, r, rfl⟩ | ⟨a, rfl⟩
  · subst h0
    rw [splitComma_no_comma _ hv]
    exact List.mem_singleton_self _
  · rw [splitComma_append, splitComma_no_comma v hv]
    simp
  · rw [splitComma_append, splitComma_append, splitComma_no_comma v hv]
    simp
  · rw [splitComma_append, splitComma_no_comma v hv]
    simp

/-- C1 counterexample.  For a filter value that itself contains a comma
the match is NOT equivalent to token membership: `"b,c"` matches the
column `"a,b,c"` through the last-element pattern, yet `"b,c"` is not one
of the comma-delimited tokens `a`, `b`, `c`. -/
theorem exact_match_not_token_membership :
    ¬ (∀ col v : List Char,
        exact_match_in_comma_list col v = true ↔ v ∈ splitComma col) := by
  intro h
  have hm := (h "a,b,c".toList "b,c".toList).1 (by decide)
  revert hm
  decide

/-- C1 (amended).  For every stored comma-joined column value and every
comma-free filter value (including values containing `%`, `_`, or the
escape character), the trigger filter and the action filter match a row
iff the filter value equals one of the comma-delimited tokens of the
column exactly; wildcard characters are escaped so they only match
literally. -/
theorem exact_match_iff_token_membership :
    (∀ col v : List Char, ',' ∉ v →
        (exact_match_in_comma_list col v = true ↔ v ∈ splitComma col))
    ∧ (∀ (a : AutomationRow) (s v : String),
        a.trigger_types = some s → ',' ∉ v.toList →
        (triggerCond v a = true ↔ v.toList ∈ splitComma s.toList))
    ∧ (∀ (a : AutomationRow) (s v : String),
        a.action_calls = some s → ',' ∉ v.toList →
        (actionCond v a = true ↔ v.toList ∈ splitComma s.toList)) := by
  have hcore : ∀ col v : List Char, ',' ∉ v →
      (exact_match_in_comma_list col v = true ↔ v ∈ splitComma col) := by
    intro col v hv
    rw [exact_match_shapes]
    constructor
    · intro h
      exact shapes_mem_splitComma col v hv h
    · intro h
      exact mem_splitComma_shapes col.length col v (Nat.le_refl _) h
  refine ⟨hcore, ?_, ?_⟩
  · intro a s v hs hv
    unfold triggerCond
    rw [hs]
    exact hcore s.toList v.toList hv
  · intro a s v hs hv
    unfold actionCond
    rw [hs]
    exact hcore s.toList v.toList hv

/-- Witness for `exact_match_iff_token_membership` at concrete inputs,
including a wildcard-bearing literal value. -/
theorem exact_match_iff_token_membership_witness :
    (',' ∉ "light.turn_on".toList
      ∧ (exact_match_in_comma_list "notify.x,light.turn_on,switch.y".toList
            "light.turn_on".toList = true
          ↔ "light.turn_on".toList
              ∈ splitComma "notify.x,light.turn_on,switch.y".toList))
      ∧ (',' ∉ "a%".toList
        ∧ (exact_match_in_comma_list "ab,cd".toList "a%".toList = true
            ↔ "a%".toList ∈ splitComma "ab,cd".toList)) :=
  ⟨⟨by decide,
    exact_match_iff_token_membership.1 _ _ (by decide)⟩,
   ⟨by decide,
    exact_match_iff_token_membership.1 _ _ (by decide)⟩⟩
